import Mathlib

/-!
Verification of the range-overlap aggregation engine
(`src/process/aggregator.ts` of `troulson/utilities-typescript`).

The TypeScript source is shallowly embedded as follows.

* `Block` mirrors the exported `Block` interface; JavaScript numeric
  coordinates are modelled as `Int` (the claims under scrutiny concern
  finite coordinates, on which JavaScript comparison agrees with the
  integer order), and the untyped `value : any` payload becomes a type
  parameter.
* The `functional-red-black-tree` collaborator is modelled by its
  contract: a persistent key-sorted association list with `get`,
  `remove`, `insert` and ascending iteration (`treeGet`, `treeRemove`,
  `treeInsert`).  The source always calls `remove` before `insert`, so
  keys stay unique.
* The ES2015 `Map` used for the active set is modelled as an
  insertion-ordered association list (`mapSet` updates in place or
  appends, `mapDelete` removes the entry, `values` reads in insertion
  order), exactly the iteration behaviour guaranteed for `Map`.
* The `while (iterator.hasNext)` scan of `aggregate` becomes the
  structural recursion `scanLoop`: the body runs while the current node
  has a successor, reads the current node's events, advances, and emits
  the span from the current key to the successor key.
* Exceptions thrown by the caller-supplied callbacks are modelled with
  `Except` (`scanLoopE`, `createRedBlackTreeE`, `aggregateE`), with the
  same evaluation order as the JavaScript code.
-/

namespace Aggregation

/-- `Block` interface of the source: a numeric `start` and `end` plus an
arbitrary payload `value`. -/
structure Block (α : Type) where
  start : Int
  «end» : Int
  value : α
  deriving DecidableEq, Repr

/-- `NodeValue`: the value stored at each tree node — the list of blocks
starting here (unique index paired with the payload, mirroring the
single-key object `{[i]: block.value}`) and the list of indices of
blocks ending here. -/
structure NodeValue (α : Type) where
  start : List (Nat × α)
  «end» : List Nat
  deriving DecidableEq, Repr

/-- `Aggregator.emptyNodeValue`: fresh node value with empty `start` and
`end` arrays. -/
def emptyNodeValue {α : Type} : NodeValue α := { start := [], «end» := [] }

/-- The two shapes of `pushValueToNode`'s `value`/`property` arguments:
push `{[i]: v}` onto `start`, or push the index `i` onto `end`. -/
inductive NodePush (α : Type) where
  | toStart : Nat → α → NodePush α
  | toEnd : Nat → NodePush α

/-- The persistent ordered map collaborator, as a key-sorted association
list. -/
abbrev Tree (α : Type) := List (Int × NodeValue α)

/-- `tree.get(key)`: value of the (first) node with the given key. -/
def treeGet {α : Type} : Tree α → Int → Option (NodeValue α)
  | [], _ => none
  | (k', v) :: rest, k => if k = k' then some v else treeGet rest k

/-- `tree.remove(key)`: drop the (first) node with the given key. -/
def treeRemove {α : Type} : Tree α → Int → Tree α
  | [], _ => []
  | (k', v) :: rest, k => if k = k' then rest else (k', v) :: treeRemove rest k

/-- `tree.insert(key, value)`: insert a node at its place in the key
order. -/
def treeInsert {α : Type} : Tree α → Int → NodeValue α → Tree α
  | [], k, v => [(k, v)]
  | (k', v') :: rest, k, v =>
    if k ≤ k' then (k, v) :: (k', v') :: rest else (k', v') :: treeInsert rest k v

/-- Apply a `NodePush` to a node value (the `nodeValue[property].push(value)`
line). -/
def applyPush {α : Type} (n : NodeValue α) : NodePush α → NodeValue α
  | .toStart i v => { n with start := n.start ++ [(i, v)] }
  | .toEnd i => { n with «end» := n.«end» ++ [i] }

/-- `Aggregator.pushValueToNode`: read the node (or a fresh empty one),
push the value onto the requested property, then `remove` and `insert`
the node back. -/
def pushValueToNode {α : Type} (tree : Tree α) (key : Int) (value : NodePush α) : Tree α :=
  let nodeValue := (treeGet tree key).getD emptyNodeValue
  treeInsert (treeRemove tree key) key (applyPush nodeValue value)

/-- `Aggregator.createRedBlackTree`: fold over `items.entries()`; for the
item at ordinal `i`, convert with the item pre-processor and push
`{[i]: block.value}` at key `block.start` and `i` at key `block.end`. -/
def createRedBlackTree {ι α : Type} (itemPreProcessor : ι → Block α) (items : List ι) :
    Tree α :=
  (items.enum).foldl
    (fun t q =>
      let block := itemPreProcessor q.2
      pushValueToNode (pushValueToNode t block.start (.toStart q.1 block.value))
        block.«end» (.toEnd q.1))
    []

/-- ES2015 `Map.prototype.set`: update an existing key in place, else
append the new entry. -/
def mapSet {α : Type} : List (Nat × α) → Nat → α → List (Nat × α)
  | [], k, v => [(k, v)]
  | (k', v') :: rest, k, v =>
    if k = k' then (k, v) :: rest else (k', v') :: mapSet rest k v

/-- ES2015 `Map.prototype.delete`: remove the entry with the given key. -/
def mapDelete {α : Type} (m : List (Nat × α)) (k : Nat) : List (Nat × α) :=
  m.filter (fun p => decide (p.1 ≠ k))

/-- One iteration of the scan body on the active map `nodeValues`: insert
every arrival of the node (`iterator.value.start.forEach`), then delete
every departure (`iterator.value.end.forEach`). -/
def applyNode {α : Type} (nodeValues : List (Nat × α)) (n : NodeValue α) :
    List (Nat × α) :=
  n.«end».foldl (fun m i => mapDelete m i)
    (n.start.foldl (fun m p => mapSet m p.1 p.2) nodeValues)

/-- The `while (iterator.hasNext)` scan of `Aggregator.aggregate`.  The
loop body runs while the current node has a successor: it applies the
current node's arrivals and departures to the active map, advances the
iterator, skips if the active map is empty, and otherwise aggregates the
active payload values (in `Map` insertion order) and emits the span from
the current key to the successor key through the item post-processor. -/
def scanLoop {α β γ : Type} (aggregationFunction : List α → β)
    (itemPostProcessor : Block β → γ) :
    Tree α → List (Nat × α) → List γ
  | [], _ => []
  | [_], _ => []
  | (k, n) :: (k', n') :: rest, nodeValues =>
    let nodeValues' := applyNode nodeValues n
    if nodeValues'.isEmpty then
      scanLoop aggregationFunction itemPostProcessor ((k', n') :: rest) nodeValues'
    else
      itemPostProcessor
          { start := k, «end» := k',
            value := aggregationFunction (nodeValues'.map Prod.snd) } ::
        scanLoop aggregationFunction itemPostProcessor ((k', n') :: rest) nodeValues'

/-- `Aggregator.aggregate`: build the red–black tree from the items, then
run the ascending scan starting from an empty active map. -/
def aggregate {ι α β γ : Type} (itemPreProcessor : ι → Block α)
    (aggregationFunction : List α → β) (itemPostProcessor : Block β → γ)
    (items : List ι) : List γ :=
  scanLoop aggregationFunction itemPostProcessor
    (createRedBlackTree itemPreProcessor items) []

/-- The `Aggregator` class: three readonly capability fields set by the
constructor. -/
structure Aggregator (ι α β γ : Type) where
  itemPreProcessor : ι → Block α
  aggregationFunction : List α → β
  itemPostProcessor : Block β → γ

/-- The `aggregate` method of the class, in terms of the instance
fields. -/
def Aggregator.aggregate {ι α β γ : Type} (a : Aggregator ι α β γ) (items : List ι) :
    List γ :=
  Aggregation.aggregate a.itemPreProcessor a.aggregationFunction a.itemPostProcessor items

example :
    aggregate (fun b => b) (fun l => l) (fun b => (b.start, b.«end», b.value))
      [(⟨0, 10, 0⟩ : Block Nat), ⟨5, 15, 1⟩] =
      [(0, 5, [0]), (5, 10, [0, 1]), (10, 15, [1])] := by decide

example :
    aggregate (fun b => b) (fun l => l) (fun b => (b.start, b.«end», b.value))
      [(⟨0, 5, 0⟩ : Block Nat), ⟨10, 15, 1⟩] =
      [(0, 5, [0]), (10, 15, [1])] := by decide

example :
    aggregate (fun b => b) (fun l => l.foldl (· + ·) 0) (fun b => (b.start, b.«end», b.value))
      [(⟨0, 10, 1⟩ : Block Nat), ⟨0, 10, 2⟩, ⟨0, 10, 3⟩] = [(0, 10, 6)] := by decide

example :
    aggregate (fun b => b) (fun l => l.length) (fun b => (b.start, b.«end», b.value))
      [(⟨2, 4, 0⟩ : Block Nat), ⟨0, 10, 1⟩] =
      [(0, 2, 1), (2, 4, 2), (4, 10, 1)] := by decide

example :
    aggregate (fun b => b) (fun l => l) (fun b => (b.start, b.«end», b.value))
      ([] : List (Block Nat)) = [] := by decide

/-! ## Fallible variant: callbacks that may raise

JavaScript exceptions are modelled with `Except`.  The monadic
definitions mirror the source statement by statement: a throw inside the
item pre-processor, the aggregation function or the item post-processor
aborts the whole call, and the locally accumulated output array is
discarded. -/

/-- `createRedBlackTree` when the item pre-processor may throw. -/
def createRedBlackTreeE {ι α ε : Type} (itemPreProcessor : ι → Except ε (Block α))
    (items : List ι) : Except ε (Tree α) :=
  (items.enum).foldlM
    (fun t q => do
      let block ← itemPreProcessor q.2
      pure (pushValueToNode (pushValueToNode t block.start (.toStart q.1 block.value))
        block.«end» (.toEnd q.1)))
    []

/-- The scan when the aggregation function and the item post-processor
may throw: the aggregation function is invoked first, then the
post-processor, then the loop continues. -/
def scanLoopE {α β γ ε : Type} (aggregationFunction : List α → Except ε β)
    (itemPostProcessor : Block β → Except ε γ) :
    Tree α → List (Nat × α) → Except ε (List γ)
  | [], _ => pure []
  | [_], _ => pure []
  | (k, n) :: (k', n') :: rest, nodeValues =>
    let nodeValues' := applyNode nodeValues n
    if nodeValues'.isEmpty then
      scanLoopE aggregationFunction itemPostProcessor ((k', n') :: rest) nodeValues'
    else do
      let aggregated ← aggregationFunction (nodeValues'.map Prod.snd)
      let g ← itemPostProcessor { start := k, «end» := k', value := aggregated }
      let out ← scanLoopE aggregationFunction itemPostProcessor ((k', n') :: rest) nodeValues'
      pure (g :: out)

/-- `aggregate` with throwing callbacks: build the whole index first,
then scan. -/
def aggregateE {ι α β γ ε : Type} (itemPreProcessor : ι → Except ε (Block α))
    (aggregationFunction : List α → Except ε β)
    (itemPostProcessor : Block β → Except ε γ) (items : List ι) : Except ε (List γ) := do
  let tree ← createRedBlackTreeE itemPreProcessor items
  scanLoopE aggregationFunction itemPostProcessor tree []

/-- A sequence of independent calls on one `Aggregator` instance. -/
def runCalls {ι α β γ : Type} (a : Aggregator ι α β γ) (calls : List (List ι)) :
    List (List γ) :=
  calls.map (fun items => a.aggregate items)

/-! ## Specification-side vocabulary

The definitions below restate, directly over the list of normalized
blocks, what the data structures built by the code are proved to
contain.  `blocksOf` tags each normalized block with its unique ordinal
id, `nodeSpec` is the proved content of a tree node, `activeList` the
proved content of the active map after the sweep has passed a
coordinate, and `spansOut` the proved output of `aggregate`. -/

/-- The id-tagged normalized blocks of a call: ordinal position paired
with the pre-processed block. -/
def blocksOf {ι α : Type} (itemPreProcessor : ι → Block α) (items : List ι) :
    List (Nat × Block α) :=
  (items.enum).map (fun q => (q.1, itemPreProcessor q.2))

/-- Folding the two pushes of one id-tagged block into the tree. -/
def buildStep {α : Type} (t : Tree α) (q : Nat × Block α) : Tree α :=
  pushValueToNode (pushValueToNode t q.2.start (.toStart q.1 q.2.value))
    q.2.«end» (.toEnd q.1)

/-- The tree built from a list of id-tagged blocks. -/
def buildTree {α : Type} (bs : List (Nat × Block α)) : Tree α :=
  bs.foldl buildStep []

/-- Whether a coordinate is an event key: some block starts or ends
there. -/
def isKey {α : Type} (bs : List (Nat × Block α)) (k : Int) : Bool :=
  bs.any (fun q => decide (q.2.start = k) || decide (q.2.«end» = k))

/-- The intended content of the tree node at key `k`: the id-payload
pairs of the blocks starting at `k` and the ids of the blocks ending at
`k`, each in input order. -/
def nodeSpec {α : Type} (bs : List (Nat × Block α)) (k : Int) : NodeValue α :=
  { start := (bs.filter (fun q => decide (q.2.start = k))).map (fun q => (q.1, q.2.value)),
    «end» := (bs.filter (fun q => decide (q.2.«end» = k))).map Prod.fst }

/-- The keys of a tree, in storage order. -/
def treeKeys {α : Type} (t : Tree α) : List Int := t.map Prod.fst

/-- The sorted event keys of a call. -/
def sortedKeys {α : Type} (bs : List (Nat × Block α)) : List Int :=
  treeKeys (buildTree bs)

/-- Whether the id-tagged block `q` occupies the active map after the
sweep has processed all event keys up to and including `K`: its start
has been swept, and it has not been removed — removal happens at its end
key only when that key is not before its start key (an inverted block is
deleted before it is inserted, hence never removed). -/
def activeCond {α : Type} (K : Int) (q : Nat × Block α) : Bool :=
  decide (q.2.start ≤ K) && (decide (q.2.«end» < q.2.start) || decide (K < q.2.«end»))

/-- The proved content of the active map after the sweep has processed
all event keys up to and including `K`: the still-active blocks, grouped
by start key in ascending order, inside each group in input order. -/
def activeList {α : Type} (bs : List (Nat × Block α)) (K : Int) : List (Nat × α) :=
  (((sortedKeys bs).filter (fun c => decide (c ≤ K))).flatMap
      (fun c => bs.filter (fun q => decide (q.2.start = c) && activeCond K q))).map
    (fun q => (q.1, q.2.value))

/-- Consecutive pairs of a list: the candidate spans of the scan. -/
def spanPairs : List Int → List (Int × Int)
  | a :: b :: rest => (a, b) :: spanPairs (b :: rest)
  | _ => []

/-- What the scan emits for the candidate span `pr`: nothing when the
active map at the span's left key is empty, otherwise the post-processed
output block aggregating the active payloads. -/
def emitSpan {α β γ : Type} (aggregationFunction : List α → β)
    (itemPostProcessor : Block β → γ) (bs : List (Nat × Block α)) (pr : Int × Int) :
    Option γ :=
  let a := activeList bs pr.1
  if a.isEmpty then none
  else some (itemPostProcessor
    { start := pr.1, «end» := pr.2, value := aggregationFunction (a.map Prod.snd) })

/-- The proved output of `aggregate`: one output block per candidate
span with a non-empty active map, in ascending order. -/
def spansOut {α β γ : Type} (aggregationFunction : List α → β)
    (itemPostProcessor : Block β → γ) (bs : List (Nat × Block α)) : List γ :=
  (spanPairs (sortedKeys bs)).filterMap (emitSpan aggregationFunction itemPostProcessor bs)

/-- The input blocks whose half-open range `[start, end)` contains the
point `p`, in input order. -/
def coveringList {α : Type} (bs : List (Nat × Block α)) (p : Int) :
    List (Nat × Block α) :=
  bs.filter (fun q => decide (q.2.start ≤ p) && decide (p < q.2.«end»))

/-- The payloads of the input blocks covering the point `p`, in input
order. -/
def coveringValues {α : Type} (bs : List (Nat × Block α)) (p : Int) : List α :=
  (coveringList bs p).map (fun q => q.2.value)

example : activeList [(0, (⟨0, 10, 7⟩ : Block Nat)), (1, ⟨5, 15, 8⟩)] 5 =
    [(0, 7), (1, 8)] := by decide

example : spansOut (fun l => l) (fun b => (b.start, b.«end», b.value))
    [(0, (⟨0, 10, 7⟩ : Block Nat)), (1, ⟨5, 15, 8⟩)] =
    [(0, 5, [7]), (5, 10, [7, 8]), (10, 15, [8])] := by decide

/-! ## Lemmas about the ordered-map collaborator -/

/-- Keyset sortedness invariant maintained by the tree. -/
def treeSorted {α : Type} (t : Tree α) : Prop :=
  List.Pairwise (· < ·) (treeKeys t)

theorem treeKeys_cons {α : Type} (q : Int × NodeValue α) (t : Tree α) :
    treeKeys (q :: t) = q.1 :: treeKeys t := rfl

theorem treeSorted_cons_iff {α : Type} (q : Int × NodeValue α) (t : Tree α) :
    treeSorted (q :: t) ↔ (∀ c ∈ treeKeys t, q.1 < c) ∧ treeSorted t := by
  simp [treeSorted, treeKeys_cons, List.pairwise_cons]

theorem treeGet_eq_none_iff {α : Type} (t : Tree α) (k : Int) :
    treeGet t k = none ↔ k ∉ treeKeys t := by
  induction t with
  | nil => simp [treeGet, treeKeys]
  | cons hd tl ih =>
    obtain ⟨k', v⟩ := hd
    by_cases h : k = k'
    · subst h; simp [treeGet, treeKeys_cons]
    · simp [treeGet, h, treeKeys_cons, ih, Ne.symm h]

theorem mem_of_treeGet_eq_some {α : Type} {t : Tree α} {k : Int} {n : NodeValue α}
    (h : treeGet t k = some n) : (k, n) ∈ t := by
  induction t with
  | nil => simp [treeGet] at h
  | cons hd tl ih =>
    obtain ⟨k', v⟩ := hd
    by_cases hk : k = k'
    · subst hk
      simp [treeGet] at h
      subst h
      exact List.mem_cons_self _ _
    · simp only [treeGet, if_neg hk] at h
      exact List.mem_cons_of_mem _ (ih h)

theorem treeGet_eq_some_of_mem {α : Type} {t : Tree α} {k : Int} {n : NodeValue α}
    (hs : treeSorted t) (h : (k, n) ∈ t) : treeGet t k = some n := by
  induction t with
  | nil => simp at h
  | cons hd tl ih =>
    obtain ⟨k', v⟩ := hd
    rcases List.mem_cons.mp h with h1 | h1
    · cases h1
      simp [treeGet]
    · have hk : k ∈ treeKeys tl := by
        simpa [treeKeys] using List.mem_map_of_mem Prod.fst h1
      have hlt : k' < k := ((treeSorted_cons_iff _ _).mp hs).1 k hk
      have : ¬ k = k' := by omega
      simp only [treeGet, if_neg this]
      exact ih ((treeSorted_cons_iff _ _).mp hs).2 h1

theorem treeRemove_sublist {α : Type} (t : Tree α) (k : Int) :
    List.Sublist (treeRemove t k) t := by
  induction t with
  | nil => simp [treeRemove]
  | cons hd tl ih =>
    obtain ⟨k', v⟩ := hd
    by_cases h : k = k'
    · simp [treeRemove, h]
    · simpa [treeRemove, h] using List.Sublist.cons₂ (k', v) ih

theorem treeSorted_treeRemove {α : Type} {t : Tree α} (hs : treeSorted t) (k : Int) :
    treeSorted (treeRemove t k) :=
  hs.sublist ((treeRemove_sublist t k).map Prod.fst)

theorem treeKeys_treeRemove_sub {α : Type} {t : Tree α} {k c : Int}
    (h : c ∈ treeKeys (treeRemove t k)) : c ∈ treeKeys t :=
  (List.map_subset Prod.fst (fun _ hx => (treeRemove_sublist t k).mem hx)) h

theorem treeGet_treeRemove_self {α : Type} {t : Tree α} (hs : treeSorted t) (k : Int) :
    treeGet (treeRemove t k) k = none := by
  induction t with
  | nil => simp [treeRemove, treeGet]
  | cons hd tl ih =>
    obtain ⟨k', v⟩ := hd
    by_cases h : k = k'
    · subst h
      simp only [treeRemove, if_pos rfl]
      rw [treeGet_eq_none_iff]
      intro hk
      exact absurd (((treeSorted_cons_iff _ _).mp hs).1 k hk) (by omega)
    · simp only [treeRemove, if_neg h, treeGet, if_neg h]
      exact ih ((treeSorted_cons_iff _ _).mp hs).2

theorem treeGet_treeRemove_of_ne {α : Type} (t : Tree α) {k k' : Int} (h : k' ≠ k) :
    treeGet (treeRemove t k) k' = treeGet t k' := by
  induction t with
  | nil => simp [treeRemove]
  | cons hd tl ih =>
    obtain ⟨k0, v⟩ := hd
    by_cases hk : k = k0
    · subst hk
      simp [treeRemove, treeGet, h]
    · by_cases hk' : k' = k0
      · subst hk'
        simp [treeRemove, hk, treeGet]
      · simp [treeRemove, hk, treeGet, hk', ih]

theorem treeKeys_treeInsert {α : Type} (t : Tree α) (k : Int) (v : NodeValue α) (c : Int) :
    c ∈ treeKeys (treeInsert t k v) ↔ c = k ∨ c ∈ treeKeys t := by
  induction t with
  | nil => simp [treeInsert, treeKeys]
  | cons hd tl ih =>
    obtain ⟨k0, v0⟩ := hd
    by_cases h : k ≤ k0
    · simp only [treeInsert, if_pos h, treeKeys_cons, List.mem_cons]
    · simp only [treeInsert, if_neg h, treeKeys_cons, List.mem_cons, ih]
      tauto

theorem treeSorted_treeInsert {α : Type} {t : Tree α} {k : Int} (hs : treeSorted t)
    (hk : k ∉ treeKeys t) (v : NodeValue α) : treeSorted (treeInsert t k v) := by
  induction t with
  | nil => simp [treeInsert, treeSorted, treeKeys]
  | cons hd tl ih =>
    obtain ⟨k0, v0⟩ := hd
    have hk0 : k ≠ k0 := by
      intro h; exact hk (by simp [treeKeys_cons, h])
    have hktl : k ∉ treeKeys tl := fun h => hk (by simp [treeKeys_cons, h])
    obtain ⟨hlt, hstl⟩ := (treeSorted_cons_iff _ _).mp hs
    by_cases h : k ≤ k0
    · simp only [treeInsert, if_pos h]
      rw [treeSorted_cons_iff]
      refine ⟨?_, hs⟩
      intro c hc
      rcases List.mem_cons.mp (by simpa [treeKeys_cons] using hc) with h1 | h1
      · omega
      · have := hlt c h1; omega
    · simp only [treeInsert, if_neg h]
      rw [treeSorted_cons_iff]
      refine ⟨?_, ih hstl hktl⟩
      intro c hc
      rcases (treeKeys_treeInsert tl k v c).mp hc with h1 | h1
      · omega
      · exact hlt c h1

theorem treeGet_treeInsert_self {α : Type} {t : Tree α} {k : Int} (hk : k ∉ treeKeys t)
    (v : NodeValue α) : treeGet (treeInsert t k v) k = some v := by
  induction t with
  | nil => simp [treeInsert, treeGet]
  | cons hd tl ih =>
    obtain ⟨k0, v0⟩ := hd
    have hk0 : k ≠ k0 := by
      intro h; exact hk (by simp [treeKeys_cons, h])
    have hktl : k ∉ treeKeys tl := fun h => hk (by simp [treeKeys_cons, h])
    by_cases h : k ≤ k0
    · simp [treeInsert, h, treeGet]
    · simp [treeInsert, h, treeGet, hk0, ih hktl]

theorem treeGet_treeInsert_of_ne {α : Type} (t : Tree α) {k k' : Int} (h : k' ≠ k)
    (v : NodeValue α) : treeGet (treeInsert t k v) k' = treeGet t k' := by
  induction t with
  | nil => simp [treeInsert, treeGet, h]
  | cons hd tl ih =>
    obtain ⟨k0, v0⟩ := hd
    by_cases hle : k ≤ k0
    · simp [treeInsert, hle, treeGet, h]
    · by_cases hk' : k' = k0
      · simp [treeInsert, hle, treeGet, hk']
      · simp [treeInsert, hle, treeGet, hk', ih]

/-- The node value read (or freshly created) for a key. -/
def getOrEmpty {α : Type} (t : Tree α) (k : Int) : NodeValue α :=
  (treeGet t k).getD emptyNodeValue

theorem treeSorted_pushValueToNode {α : Type} {t : Tree α} (hs : treeSorted t)
    (key : Int) (value : NodePush α) : treeSorted (pushValueToNode t key value) := by
  unfold pushValueToNode
  refine treeSorted_treeInsert (treeSorted_treeRemove hs key) ?_ _
  rw [← treeGet_eq_none_iff]
  exact treeGet_treeRemove_self hs key

theorem treeGet_pushValueToNode {α : Type} {t : Tree α} (hs : treeSorted t)
    (key : Int) (value : NodePush α) (c : Int) :
    treeGet (pushValueToNode t key value) c =
      if c = key then some (applyPush (getOrEmpty t key) value) else treeGet t c := by
  unfold pushValueToNode
  by_cases h : c = key
  · subst h
    rw [if_pos rfl]
    refine treeGet_treeInsert_self ?_ _
    rw [← treeGet_eq_none_iff]
    exact treeGet_treeRemove_self hs c
  · rw [if_neg h, treeGet_treeInsert_of_ne _ h, treeGet_treeRemove_of_ne _ h]

theorem treeKeys_pushValueToNode {α : Type} {t : Tree α} (hs : treeSorted t)
    (key : Int) (value : NodePush α) (c : Int) :
    c ∈ treeKeys (pushValueToNode t key value) ↔ c = key ∨ c ∈ treeKeys t := by
  constructor
  · intro h
    by_cases hc : c = key
    · exact Or.inl hc
    · refine Or.inr ?_
      have hg : treeGet (pushValueToNode t key value) c ≠ none := by
        rw [Ne, treeGet_eq_none_iff]; exact fun hn => hn h
      rw [treeGet_pushValueToNode hs key value c, if_neg hc] at hg
      by_contra hmem
      exact hg ((treeGet_eq_none_iff t c).mpr hmem)
  · intro h
    by_contra hmem
    have hn := (treeGet_eq_none_iff _ c).mpr hmem
    rw [treeGet_pushValueToNode hs key value c] at hn
    rcases h with h | h
    · rw [if_pos h] at hn; exact Option.noConfusion hn
    · by_cases hc : c = key
      · rw [if_pos hc] at hn; exact Option.noConfusion hn
      · rw [if_neg hc, treeGet_eq_none_iff] at hn; exact hn h

/-! ## Build-phase characterization -/

theorem createRedBlackTree_eq_buildTree {ι α : Type} (itemPreProcessor : ι → Block α)
    (items : List ι) :
    createRedBlackTree itemPreProcessor items = buildTree (blocksOf itemPreProcessor items) := by
  unfold createRedBlackTree buildTree blocksOf buildStep
  rw [List.foldl_map]

theorem buildTree_append_singleton {α : Type} (bs : List (Nat × Block α))
    (q : Nat × Block α) : buildTree (bs ++ [q]) = buildStep (buildTree bs) q := by
  simp [buildTree, List.foldl_append]

theorem nodeSpec_append_singleton {α : Type} (bs : List (Nat × Block α))
    (q : Nat × Block α) (k : Int) :
    nodeSpec (bs ++ [q]) k =
      { start := (nodeSpec bs k).start ++ (if q.2.start = k then [(q.1, q.2.value)] else []),
        «end» := (nodeSpec bs k).«end» ++ (if q.2.«end» = k then [q.1] else []) } := by
  by_cases h1 : q.2.start = k <;> by_cases h2 : q.2.«end» = k <;>
    simp [nodeSpec, List.filter_append, List.map_append, List.filter_singleton, h1, h2]

theorem isKey_append_singleton {α : Type} (bs : List (Nat × Block α))
    (q : Nat × Block α) (k : Int) :
    isKey (bs ++ [q]) k =
      (isKey bs k || (decide (q.2.start = k) || decide (q.2.«end» = k))) := by
  simp [isKey, List.any_append]

theorem nodeSpec_of_not_isKey {α : Type} {bs : List (Nat × Block α)} {k : Int}
    (h : isKey bs k = false) : nodeSpec bs k = emptyNodeValue := by
  have h' : ∀ q ∈ bs, ¬(q.2.start = k) ∧ ¬(q.2.«end» = k) := by
    intro q hq
    have := (List.any_eq_false.mp h) q hq
    constructor <;> intro hc <;> simp [hc] at this
  have hs : bs.filter (fun q => decide (q.2.start = k)) = [] := by
    rw [List.filter_eq_nil_iff]
    intro q hq
    simpa using (h' q hq).1
  have he : bs.filter (fun q => decide (q.2.«end» = k)) = [] := by
    rw [List.filter_eq_nil_iff]
    intro q hq
    simpa using (h' q hq).2
  simp [nodeSpec, emptyNodeValue, hs, he]

theorem buildTree_sorted {α : Type} (bs : List (Nat × Block α)) :
    treeSorted (buildTree bs) := by
  induction bs using List.reverseRecOn with
  | nil => simp [buildTree, treeSorted, treeKeys]
  | append_singleton bs q ih =>
    rw [buildTree_append_singleton]
    exact treeSorted_pushValueToNode (treeSorted_pushValueToNode ih _ _) _ _

theorem getOrEmpty_buildTree {α : Type} (bs : List (Nat × Block α)) (k : Int) :
    getOrEmpty (buildTree bs) k = nodeSpec bs k := by
  induction bs using List.reverseRecOn generalizing k with
  | nil =>
    rw [nodeSpec_of_not_isKey (show isKey ([] : List (Nat × Block α)) k = false by
      simp [isKey])]
    simp [buildTree, getOrEmpty, treeGet, emptyNodeValue]
  | append_singleton bs q ih =>
    obtain ⟨i, b⟩ := q
    have hs1 : treeSorted (buildTree bs) := buildTree_sorted bs
    have hs2 : treeSorted (pushValueToNode (buildTree bs) b.start (.toStart i b.value)) :=
      treeSorted_pushValueToNode hs1 _ _
    have hmid : ∀ c : Int,
        getOrEmpty (pushValueToNode (buildTree bs) b.start (.toStart i b.value)) c =
          if c = b.start then applyPush (nodeSpec bs b.start) (.toStart i b.value)
          else nodeSpec bs c := by
      intro c
      unfold getOrEmpty
      rw [treeGet_pushValueToNode hs1]
      by_cases hc : c = b.start
      · rw [if_pos hc, if_pos hc, Option.getD_some, ih b.start]
      · rw [if_neg hc, if_neg hc]
        exact ih c
    rw [buildTree_append_singleton, nodeSpec_append_singleton]
    unfold buildStep getOrEmpty
    rw [treeGet_pushValueToNode hs2]
    by_cases h2 : k = b.«end»
    · subst h2
      rw [if_pos rfl, Option.getD_some, hmid b.«end»]
      by_cases h1 : b.start = b.«end»
      · rw [if_pos h1.symm]
        simp [applyPush, h1]
      · rw [if_neg (fun h => h1 h.symm)]
        simp [applyPush, h1]
    · rw [if_neg h2]
      have hthis : (treeGet (pushValueToNode (buildTree bs) b.start
          (NodePush.toStart i b.value)) k).getD emptyNodeValue =
          getOrEmpty (pushValueToNode (buildTree bs) b.start (NodePush.toStart i b.value)) k :=
        rfl
      rw [hthis, hmid k]
      by_cases h1 : k = b.start
      · subst h1
        rw [if_pos rfl, if_pos rfl,
          if_neg (show ¬ b.«end» = b.start from fun h => h2 h.symm)]
        simp [applyPush]
      · rw [if_neg h1, if_neg (fun h => h1 h.symm),
          if_neg (show ¬ b.«end» = k from fun h => h2 h.symm)]
        simp

theorem mem_sortedKeys_iff {α : Type} (bs : List (Nat × Block α)) (k : Int) :
    k ∈ sortedKeys bs ↔ isKey bs k = true := by
  induction bs using List.reverseRecOn with
  | nil => simp [sortedKeys, buildTree, treeKeys, isKey]
  | append_singleton bs q ih =>
    obtain ⟨i, b⟩ := q
    have hs1 : treeSorted (buildTree bs) := buildTree_sorted bs
    have hs2 : treeSorted (pushValueToNode (buildTree bs) b.start (.toStart i b.value)) :=
      treeSorted_pushValueToNode hs1 _ _
    unfold sortedKeys
    rw [buildTree_append_singleton]
    unfold buildStep
    rw [treeKeys_pushValueToNode hs2, treeKeys_pushValueToNode hs1, isKey_append_singleton]
    unfold sortedKeys at ih
    rw [ih]
    by_cases h1 : k = b.start <;> by_cases h2 : k = b.«end» <;>
      (simp [h1, h2]; try tauto)

/-! ## Active-map lemmas -/

theorem mapSet_of_not_mem {α : Type} {m : List (Nat × α)} {i : Nat}
    (h : i ∉ m.map Prod.fst) (v : α) : mapSet m i v = m ++ [(i, v)] := by
  induction m with
  | nil => simp [mapSet]
  | cons hd tl ih =>
    obtain ⟨j, w⟩ := hd
    have hij : ¬ i = j := by
      intro hc; exact h (by simp [hc])
    have htl : i ∉ tl.map Prod.fst := fun hc => h (by simp [hc])
    simp [mapSet, hij, ih htl]

theorem foldl_mapSet_of_fresh {α : Type} {L : List (Nat × α)} :
    ∀ {A : List (Nat × α)}, (∀ p ∈ L, p.1 ∉ A.map Prod.fst) → (L.map Prod.fst).Nodup →
      L.foldl (fun m p => mapSet m p.1 p.2) A = A ++ L := by
  induction L with
  | nil => intro A _ _; simp
  | cons hd tl ih =>
    intro A hfresh hnd
    have h1 : mapSet A hd.1 hd.2 = A ++ [hd] := by
      rw [mapSet_of_not_mem (hfresh hd (List.mem_cons_self _ _)) hd.2]
    have h2 : ∀ p ∈ tl, p.1 ∉ (A ++ [hd]).map Prod.fst := by
      intro p hp hmem
      rw [List.map_append, List.mem_append] at hmem
      rcases hmem with hm | hm
      · exact hfresh p (List.mem_cons_of_mem _ hp) hm
      · simp only [List.map_cons, List.map_nil, List.mem_singleton] at hm
        rw [List.map_cons, List.nodup_cons] at hnd
        exact hnd.1 (hm ▸ List.mem_map_of_mem Prod.fst hp)
    have h3 : (tl.map Prod.fst).Nodup := by
      rw [List.map_cons, List.nodup_cons] at hnd
      exact hnd.2
    calc (hd :: tl).foldl (fun m p => mapSet m p.1 p.2) A
        = tl.foldl (fun m p => mapSet m p.1 p.2) (mapSet A hd.1 hd.2) := rfl
      _ = (A ++ [hd]) ++ tl := by rw [h1, ih h2 h3]
      _ = A ++ (hd :: tl) := by simp

theorem foldl_mapDelete_eq_filter {α : Type} {D : List Nat} :
    ∀ {A : List (Nat × α)},
      D.foldl (fun m i => mapDelete m i) A = A.filter (fun p => decide (p.1 ∉ D)) := by
  induction D with
  | nil =>
    intro A
    simp only [List.foldl_nil]
    exact (List.filter_eq_self.mpr (fun p _ => by simp)).symm
  | cons d D ih =>
    intro A
    calc (d :: D).foldl (fun m i => mapDelete m i) A
        = D.foldl (fun m i => mapDelete m i) (mapDelete A d) := rfl
      _ = (mapDelete A d).filter (fun p => decide (p.1 ∉ D)) := ih
      _ = A.filter (fun p => decide (p.1 ∉ d :: D)) := by
          unfold mapDelete
          rw [List.filter_filter]
          apply List.filter_congr
          intro p _
          by_cases h1 : p.1 = d <;> by_cases h2 : p.1 ∈ D <;> simp [h1, h2]

theorem filter_flatMap {α β : Type} (l : List α) (g : α → List β) (p : β → Bool) :
    (l.flatMap g).filter p = l.flatMap (fun c => (g c).filter p) := by
  induction l with
  | nil => simp
  | cons hd tl ih => simp [List.flatMap_cons, List.filter_append, ih]

theorem flatMap_congr {α β : Type} {l : List α} {g g' : α → List β}
    (h : ∀ c ∈ l, g c = g' c) : l.flatMap g = l.flatMap g' := by
  induction l with
  | nil => simp
  | cons hd tl ih =>
    simp only [List.flatMap_cons]
    rw [h hd (List.mem_cons_self _ _), ih (fun c hc => h c (List.mem_cons_of_mem _ hc))]

theorem filter_le_split {K k : Int} :
    ∀ {ks : List Int}, List.Pairwise (· < ·) ks → k ∈ ks → K < k →
      (∀ c ∈ ks, c ≤ K ∨ k ≤ c) →
      ks.filter (fun c => decide (c ≤ k)) = ks.filter (fun c => decide (c ≤ K)) ++ [k] := by
  intro ks
  induction ks with
  | nil => intro _ h; simp at h
  | cons c ks ih =>
    intro hsort hmem hKk hgap
    rw [List.pairwise_cons] at hsort
    rcases List.mem_cons.mp hmem with hc | hc
    · subst hc
      have h1 : ∀ d ∈ ks, ¬ (d ≤ k) := fun d hd => by have := hsort.1 d hd; omega
      have h2 : ks.filter (fun c => decide (c ≤ k)) = [] := by
        rw [List.filter_eq_nil_iff]
        intro d hd
        simpa using h1 d hd
      have h3 : ks.filter (fun c => decide (c ≤ K)) = [] := by
        rw [List.filter_eq_nil_iff]
        intro d hd
        have := hsort.1 d hd
        simp only [decide_eq_true_eq]
        omega
      have h4 : ¬ (k ≤ K) := by omega
      simp [h2, h3, h4]
    · have hck : c ≤ K ∨ k ≤ c := hgap c (List.mem_cons_self _ _)
      have hlt : c < k := hsort.1 k hc
      have hcK : c ≤ K := by rcases hck with h | h; exact h; omega
      have hck' : c ≤ k := by omega
      rw [List.filter_cons_of_pos (by simpa using hck'),
        List.filter_cons_of_pos (by simpa using hcK),
        ih hsort.2 hc hKk (fun d hd => hgap d (List.mem_cons_of_mem _ hd))]
      rfl

theorem isKey_of_mem_start {α : Type} {bs : List (Nat × Block α)} {q : Nat × Block α}
    (h : q ∈ bs) : isKey bs q.2.start = true := by
  rw [isKey, List.any_eq_true]
  exact ⟨q, h, by simp⟩

theorem isKey_of_mem_end {α : Type} {bs : List (Nat × Block α)} {q : Nat × Block α}
    (h : q ∈ bs) : isKey bs q.2.«end» = true := by
  rw [isKey, List.any_eq_true]
  exact ⟨q, h, by simp⟩

theorem sortedKeys_pairwise {α : Type} (bs : List (Nat × Block α)) :
    List.Pairwise (· < ·) (sortedKeys bs) := buildTree_sorted bs

theorem activeCond_iff {α : Type} (K : Int) (q : Nat × Block α) :
    activeCond K q = true ↔
      q.2.start ≤ K ∧ (q.2.«end» < q.2.start ∨ K < q.2.«end») := by
  simp [activeCond]

theorem mem_activeList_iff {α : Type} (bs : List (Nat × Block α)) (K : Int)
    (i : Nat) (v : α) :
    (i, v) ∈ activeList bs K ↔
      ∃ q ∈ bs, q.1 = i ∧ q.2.value = v ∧ activeCond K q = true := by
  unfold activeList
  rw [List.mem_map]
  constructor
  · rintro ⟨q, hq, hpair⟩
    rw [List.mem_flatMap] at hq
    obtain ⟨c, _, hq⟩ := hq
    rw [List.mem_filter] at hq
    obtain ⟨hqbs, hcond⟩ := hq
    rw [Bool.and_eq_true] at hcond
    obtain ⟨he1, he2⟩ := Prod.mk.injEq .. ▸ hpair
    exact ⟨q, hqbs, by simpa using he1, by simpa using he2, hcond.2⟩
  · rintro ⟨q, hqbs, hi, hv, hcond⟩
    refine ⟨q, ?_, by simp [hi, hv]⟩
    rw [List.mem_flatMap]
    refine ⟨q.2.start, ?_, ?_⟩
    · rw [List.mem_filter]
      have hs : q.2.start ≤ K := ((activeCond_iff K q).mp hcond).1
      exact ⟨(mem_sortedKeys_iff bs q.2.start).mpr (isKey_of_mem_start hqbs),
        by simpa using hs⟩
    · rw [List.mem_filter]
      exact ⟨hqbs, by simp [hcond]⟩

theorem fst_mem_activeList_iff {α : Type} (bs : List (Nat × Block α)) (K : Int) (i : Nat) :
    i ∈ (activeList bs K).map Prod.fst ↔
      ∃ q ∈ bs, q.1 = i ∧ activeCond K q = true := by
  rw [List.mem_map]
  constructor
  · rintro ⟨⟨j, v⟩, hmem, hj⟩
    obtain ⟨q, hq, h1, _, h3⟩ := (mem_activeList_iff bs K j v).mp hmem
    exact ⟨q, hq, h1.trans (by simpa using hj), h3⟩
  · rintro ⟨q, hq, h1, h3⟩
    exact ⟨(i, q.2.value), (mem_activeList_iff bs K i q.2.value).mpr
      ⟨q, hq, h1, rfl, h3⟩, rfl⟩

theorem bool_eq_of_iff {a b : Bool} (h : a = true ↔ b = true) : a = b := by
  cases a <;> cases b <;> simp_all

theorem key_unique {α : Type} {bs : List (Nat × Block α)}
    (hnd : (bs.map Prod.fst).Nodup) {q r : Nat × Block α}
    (hq : q ∈ bs) (hr : r ∈ bs) (h : q.1 = r.1) : q = r :=
  List.inj_on_of_nodup_map hnd hq hr h

theorem mem_endIds_iff {α : Type} {bs : List (Nat × Block α)}
    (hnd : (bs.map Prod.fst).Nodup) {q : Nat × Block α} (hq : q ∈ bs) (k : Int) :
    q.1 ∈ (bs.filter (fun r => decide (r.2.«end» = k))).map Prod.fst ↔
      q.2.«end» = k := by
  rw [List.mem_map]
  constructor
  · rintro ⟨r, hr, hid⟩
    rw [List.mem_filter] at hr
    have heq : r = q := key_unique hnd hr.1 hq hid
    have := hr.2
    rw [heq] at this
    simpa using this
  · intro h
    exact ⟨q, List.mem_filter.mpr ⟨hq, by simpa using h⟩, rfl⟩

theorem filter_map_eq {α β : Type} (l : List α) (f : α → β) (p : β → Bool) :
    (l.map f).filter p = (l.filter (fun a => p (f a))).map f := by
  induction l with
  | nil => simp
  | cons hd tl ih =>
    by_cases h : p (f hd) <;> simp [h, ih]

theorem nodeSpec_start_map_fst {α : Type} (bs : List (Nat × Block α)) (k : Int) :
    (nodeSpec bs k).start.map Prod.fst =
      (bs.filter (fun q => decide (q.2.start = k))).map Prod.fst := by
  simp [nodeSpec, List.map_map]

/-- The transition step of the sweep: applying the events of the next key
`k` to the active map at stage `K` produces the active map at stage `k`,
provided no event key lies strictly between `K` and `k`. -/
theorem applyNode_activeList {α : Type} {bs : List (Nat × Block α)} {K k : Int}
    (hnd : (bs.map Prod.fst).Nodup) (hKk : K < k) (hkey : isKey bs k = true)
    (hgap : ∀ c : Int, isKey bs c = true → c ≤ K ∨ k ≤ c) :
    applyNode (activeList bs K) (nodeSpec bs k) = activeList bs k := by
  have hsort : List.Pairwise (· < ·) (sortedKeys bs) := sortedKeys_pairwise bs
  have hks_gap : ∀ c ∈ sortedKeys bs, c ≤ K ∨ k ≤ c := fun c hc =>
    hgap c ((mem_sortedKeys_iff bs c).mp hc)
  have hkmem : k ∈ sortedKeys bs := (mem_sortedKeys_iff bs k).mpr hkey
  have harr : (nodeSpec bs k).start =
      (bs.filter (fun q => decide (q.2.start = k))).map (fun q => (q.1, q.2.value)) := rfl
  have hdep : (nodeSpec bs k).«end» =
      (bs.filter (fun q => decide (q.2.«end» = k))).map Prod.fst := rfl
  have hfresh : ∀ p ∈ (nodeSpec bs k).start, p.1 ∉ (activeList bs K).map Prod.fst := by
    intro p hp hmem
    rw [harr, List.mem_map] at hp
    obtain ⟨q, hq, hpq⟩ := hp
    rw [List.mem_filter] at hq
    obtain ⟨r, hr, hr1, hr3⟩ := (fst_mem_activeList_iff bs K p.1).mp hmem
    have hq1 : q.1 = p.1 := by rw [← hpq]
    have hrq : r = q := key_unique hnd hr hq.1 (hr1.trans hq1.symm)
    have hcondr := (activeCond_iff K r).mp hr3
    have hstart : q.2.start = k := by simpa using hq.2
    rw [hrq] at hcondr
    omega
  have hndS : ((nodeSpec bs k).start.map Prod.fst).Nodup := by
    rw [nodeSpec_start_map_fst]
    exact hnd.sublist ((List.filter_sublist bs).map Prod.fst)
  unfold applyNode
  rw [foldl_mapSet_of_fresh hfresh hndS, foldl_mapDelete_eq_filter, List.filter_append]
  have hclaim1 : (activeList bs K).filter
      (fun p => decide (p.1 ∉ (nodeSpec bs k).«end»)) =
      (((sortedKeys bs).filter (fun c => decide (c ≤ K))).flatMap
          (fun c => bs.filter (fun q => decide (q.2.start = c) && activeCond k q))).map
        (fun q => (q.1, q.2.value)) := by
    unfold activeList
    rw [filter_map_eq, filter_flatMap]
    apply congrArg
    apply flatMap_congr
    intro c hc
    rw [List.mem_filter] at hc
    have hcK : c ≤ K := by simpa using hc.2
    rw [List.filter_filter]
    apply List.filter_congr
    intro q hq
    apply bool_eq_of_iff
    have hDq := mem_endIds_iff hnd hq k
    have hgape := hgap q.2.«end» (isKey_of_mem_end hq)
    simp only [hdep, activeCond, Bool.and_eq_true, Bool.or_eq_true,
      decide_eq_true_eq, hDq]
    omega
  have hclaim2 : ((nodeSpec bs k).start).filter
      (fun p => decide (p.1 ∉ (nodeSpec bs k).«end»)) =
      (bs.filter (fun q => decide (q.2.start = k) && activeCond k q)).map
        (fun q => (q.1, q.2.value)) := by
    rw [harr, filter_map_eq]
    apply congrArg
    rw [List.filter_filter]
    apply List.filter_congr
    intro q hq
    apply bool_eq_of_iff
    have hDq := mem_endIds_iff hnd hq k
    have hgape := hgap q.2.«end» (isKey_of_mem_end hq)
    simp only [hdep, activeCond, Bool.and_eq_true, Bool.or_eq_true,
      decide_eq_true_eq, hDq]
    omega
  rw [hclaim1, hclaim2]
  unfold activeList
  rw [filter_le_split hsort hkmem hKk hks_gap, List.flatMap_append]
  simp [List.map_append]

/-! ## The scan characterization -/

theorem activeList_empty_of_lt {α : Type} {bs : List (Nat × Block α)} {K : Int}
    (h : ∀ c ∈ sortedKeys bs, K < c) : activeList bs K = [] := by
  unfold activeList
  have hf : (sortedKeys bs).filter (fun c => decide (c ≤ K)) = [] := by
    rw [List.filter_eq_nil_iff]
    intro c hc
    have := h c hc
    simp only [decide_eq_true_eq]
    omega
  rw [hf]
  simp

theorem scanLoop_suffix_spec {α β γ : Type} (agg : List α → β) (post : Block β → γ)
    {bs : List (Nat × Block α)} (hnd : (bs.map Prod.fst).Nodup) :
    ∀ (t : Tree α), ∀ (K : Int),
      List.IsSuffix t (buildTree bs) →
      (∀ q ∈ t, K < q.1) →
      (∀ c : Int, isKey bs c = true → c ≤ K ∨ c ∈ treeKeys t) →
      scanLoop agg post t (activeList bs K) =
        (spanPairs (treeKeys t)).filterMap (emitSpan agg post bs) := by
  intro t
  induction t with
  | nil =>
    intro K _ _ _
    simp [scanLoop, treeKeys, spanPairs]
  | cons hd tl ih =>
    intro K hsuf hgt hcov
    obtain ⟨k, n⟩ := hd
    have hsorted : treeSorted (buildTree bs) := buildTree_sorted bs
    have htsort : List.Pairwise (· < ·) (treeKeys ((k, n) :: tl)) :=
      hsorted.sublist (hsuf.sublist.map Prod.fst)
    have hmem_build : ∀ q ∈ (k, n) :: tl, q ∈ buildTree bs := fun q hq =>
      hsuf.sublist.subset hq
    have hnode : n = nodeSpec bs k := by
      have hget : treeGet (buildTree bs) k = some n :=
        treeGet_eq_some_of_mem hsorted (hmem_build _ (List.mem_cons_self _ _))
      have hgo := getOrEmpty_buildTree bs k
      rw [getOrEmpty, hget] at hgo
      simpa using hgo
    have hkey : isKey bs k = true := by
      have hk : k ∈ treeKeys (buildTree bs) :=
        List.mem_map_of_mem Prod.fst (hmem_build _ (List.mem_cons_self _ _))
      exact (mem_sortedKeys_iff bs k).mp hk
    have hgap : ∀ c : Int, isKey bs c = true → c ≤ K ∨ k ≤ c := by
      intro c hc
      rcases hcov c hc with h | h
      · exact Or.inl h
      · rw [treeKeys_cons, List.mem_cons] at h
        rcases h with h | h
        · right; omega
        · right
          have := (List.pairwise_cons.mp htsort).1 c h
          omega
    have htrans : applyNode (activeList bs K) n = activeList bs k := by
      rw [hnode]
      exact applyNode_activeList hnd (hgt _ (List.mem_cons_self _ _)) hkey hgap
    cases tl with
    | nil =>
      simp [scanLoop, treeKeys, spanPairs]
    | cons hd' tl' =>
      obtain ⟨k', n'⟩ := hd'
      have hrec : scanLoop agg post ((k', n') :: tl') (activeList bs k) =
          (spanPairs (treeKeys ((k', n') :: tl'))).filterMap (emitSpan agg post bs) := by
        refine ih k ((List.suffix_cons (k, n) ((k', n') :: tl')).trans hsuf) ?_ ?_
        · intro q hq
          exact (List.pairwise_cons.mp htsort).1 q.1
            (List.mem_map_of_mem Prod.fst hq)
        · intro c hc
          rcases hcov c hc with h | h
          · left
            have := hgt (k, n) (List.mem_cons_self _ _)
            omega
          · rw [treeKeys_cons, List.mem_cons] at h
            rcases h with h | h
            · left; omega
            · exact Or.inr h
      have hps : spanPairs (treeKeys ((k, n) :: (k', n') :: tl')) =
          (k, k') :: spanPairs (treeKeys ((k', n') :: tl')) := rfl
      rw [hps, List.filterMap_cons]
      have hscan : scanLoop agg post ((k, n) :: (k', n') :: tl') (activeList bs K) =
          if (applyNode (activeList bs K) n).isEmpty then
            scanLoop agg post ((k', n') :: tl') (applyNode (activeList bs K) n)
          else
            post { start := k, «end» := k',
                   value := agg ((applyNode (activeList bs K) n).map Prod.snd) } ::
              scanLoop agg post ((k', n') :: tl') (applyNode (activeList bs K) n) := rfl
      rw [hscan, htrans]
      by_cases hemp : (activeList bs k).isEmpty
      · rw [if_pos hemp, hrec]
        have hnone : emitSpan agg post bs (k, k') = none := by
          unfold emitSpan
          simp only [if_pos hemp]
        rw [hnone]
      · rw [if_neg hemp, hrec]
        have hsome : emitSpan agg post bs (k, k') =
            some (post { start := k, «end» := k',
                         value := agg ((activeList bs k).map Prod.snd) }) := by
          unfold emitSpan
          simp only [if_neg hemp]
        rw [hsome]

theorem scanLoop_buildTree_spec {α β γ : Type} (agg : List α → β) (post : Block β → γ)
    {bs : List (Nat × Block α)} (hnd : (bs.map Prod.fst).Nodup) :
    scanLoop agg post (buildTree bs) [] = spansOut agg post bs := by
  by_cases hnil : buildTree bs = []
  · have hsk : sortedKeys bs = [] := by rw [sortedKeys, hnil]; rfl
    rw [hnil, spansOut, hsk]
    simp [scanLoop, spanPairs]
  · obtain ⟨hd, tl, hbt⟩ : ∃ hd tl, buildTree bs = hd :: tl := by
      cases h : buildTree bs with
      | nil => exact absurd h hnil
      | cons a l => exact ⟨a, l, rfl⟩
    have hsorted : treeSorted (buildTree bs) := buildTree_sorted bs
    have hp : List.Pairwise (· < ·) (treeKeys (hd :: tl)) := by
      rw [← hbt]; exact hsorted
    have hgt : ∀ q ∈ buildTree bs, hd.1 - 1 < q.1 := by
      intro q hq
      rw [hbt] at hq
      rcases List.mem_cons.mp hq with h | h
      · rw [h]; omega
      · have := (List.pairwise_cons.mp hp).1 q.1 (List.mem_map_of_mem Prod.fst h)
        omega
    have hempty : activeList bs (hd.1 - 1) = [] := by
      apply activeList_empty_of_lt
      intro c hc
      rw [sortedKeys, hbt, treeKeys_cons, List.mem_cons] at hc
      rcases hc with h | h
      · omega
      · have := (List.pairwise_cons.mp hp).1 c h
        omega
    have hcov : ∀ c : Int, isKey bs c = true → c ≤ hd.1 - 1 ∨ c ∈ treeKeys (buildTree bs) :=
      fun c hc => Or.inr ((mem_sortedKeys_iff bs c).mpr hc)
    have hmain := scanLoop_suffix_spec agg post hnd (buildTree bs) (hd.1 - 1)
      (List.suffix_refl _) hgt hcov
    rw [hempty] at hmain
    rw [spansOut]
    exact hmain

theorem blocksOf_map_fst {ι α : Type} (itemPreProcessor : ι → Block α) (items : List ι) :
    (blocksOf itemPreProcessor items).map Prod.fst = List.range items.length := by
  rw [blocksOf, List.map_map]
  exact List.enum_map_fst items

theorem blocksOf_nodup {ι α : Type} (itemPreProcessor : ι → Block α) (items : List ι) :
    ((blocksOf itemPreProcessor items).map Prod.fst).Nodup := by
  rw [blocksOf_map_fst]
  exact List.nodup_range items.length

/-- Master theorem: `aggregate` emits exactly one output block per
candidate span with a non-empty active map, with the characterized
boundaries, payloads and order. -/
theorem aggregate_eq_spansOut {ι α β γ : Type} (itemPreProcessor : ι → Block α)
    (aggregationFunction : List α → β) (itemPostProcessor : Block β → γ)
    (items : List ι) :
    aggregate itemPreProcessor aggregationFunction itemPostProcessor items =
      spansOut aggregationFunction itemPostProcessor (blocksOf itemPreProcessor items) := by
  unfold aggregate
  rw [createRedBlackTree_eq_buildTree]
  exact scanLoop_buildTree_spec aggregationFunction itemPostProcessor
    (blocksOf_nodup itemPreProcessor items)

/-! ## Span-level lemmas -/

theorem spanPairs_mem_keys {ks : List Int} {ab : Int × Int} :
    ab ∈ spanPairs ks → ab.1 ∈ ks ∧ ab.2 ∈ ks := by
  induction ks with
  | nil => intro h; simp [spanPairs] at h
  | cons a ks ih =>
    cases ks with
    | nil => intro h; simp [spanPairs] at h
    | cons b ks' =>
      intro h
      rw [show spanPairs (a :: b :: ks') = (a, b) :: spanPairs (b :: ks') from rfl,
        List.mem_cons] at h
      rcases h with h | h
      · rw [h]; exact ⟨List.mem_cons_self _ _, List.mem_cons_of_mem _ (List.mem_cons_self _ _)⟩
      · obtain ⟨h1, h2⟩ := ih h
        exact ⟨List.mem_cons_of_mem _ h1, List.mem_cons_of_mem _ h2⟩

theorem spanPairs_lt {ks : List Int} (hs : List.Pairwise (· < ·) ks) {ab : Int × Int}
    (h : ab ∈ spanPairs ks) : ab.1 < ab.2 := by
  induction ks with
  | nil => simp [spanPairs] at h
  | cons a ks ih =>
    cases ks with
    | nil => simp [spanPairs] at h
    | cons b ks' =>
      rw [show spanPairs (a :: b :: ks') = (a, b) :: spanPairs (b :: ks') from rfl,
        List.mem_cons] at h
      rcases h with h | h
      · rw [h]
        exact (List.pairwise_cons.mp hs).1 b (List.mem_cons_self _ _)
      · exact ih (List.pairwise_cons.mp hs).2 h

theorem spanPairs_gap {ks : List Int} (hs : List.Pairwise (· < ·) ks) {ab : Int × Int}
    (h : ab ∈ spanPairs ks) : ∀ c ∈ ks, c ≤ ab.1 ∨ ab.2 ≤ c := by
  induction ks with
  | nil => simp [spanPairs] at h
  | cons a ks ih =>
    cases ks with
    | nil => simp [spanPairs] at h
    | cons b ks' =>
      rw [show spanPairs (a :: b :: ks') = (a, b) :: spanPairs (b :: ks') from rfl,
        List.mem_cons] at h
      intro c hc
      rcases h with h | h
      · rw [h]
        rcases List.mem_cons.mp hc with h1 | h1
        · left; omega
        · rcases List.mem_cons.mp h1 with h2 | h2
          · right; omega
          · right
            have := (List.pairwise_cons.mp (List.pairwise_cons.mp hs).2).1 c h2
            omega
      · rcases List.mem_cons.mp hc with h1 | h1
        · left
          have hab := (spanPairs_mem_keys h).1
          have := (List.pairwise_cons.mp hs).1 ab.1 hab
          omega
        · exact ih (List.pairwise_cons.mp hs).2 h c h1

theorem spanPairs_cover {ks : List Int} :
    List.Pairwise (· < ·) ks → ∀ x y p : Int, x ∈ ks → y ∈ ks → x ≤ p → p < y →
      ∃ ab ∈ spanPairs ks, ab.1 ≤ p ∧ p < ab.2 := by
  induction ks with
  | nil => intro _ x y p hx; simp at hx
  | cons a ks ih =>
    intro hs x y p hx hy hxp hpy
    cases ks with
    | nil =>
      have hax : x = a := by simpa using hx
      have hay : y = a := by simpa using hy
      omega
    | cons b ks' =>
      by_cases hpb : p < b
      · refine ⟨(a, b), List.mem_cons_self _ _, ?_, hpb⟩
        have hxa : x = a := by
          rcases List.mem_cons.mp hx with h | h
          · exact h
          · exfalso
            have : b ≤ x := by
              rcases List.mem_cons.mp h with h1 | h1
              · omega
              · have := (List.pairwise_cons.mp (List.pairwise_cons.mp hs).2).1 x h1
                omega
            omega
        omega
      · have hyb : y ∈ b :: ks' := by
          rcases List.mem_cons.mp hy with h | h
          · exfalso
            have : a ≤ p := by
              have hb := (List.pairwise_cons.mp hs).1 b (List.mem_cons_self _ _)
              omega
            omega
          · exact h
        obtain ⟨ab, hmem, h1, h2⟩ := ih (List.pairwise_cons.mp hs).2 b y p
          (List.mem_cons_self _ _) hyb (by omega) hpy
        exact ⟨ab, by
          rw [show spanPairs (a :: b :: ks') = (a, b) :: spanPairs (b :: ks') from rfl]
          exact List.mem_cons_of_mem _ hmem, h1, h2⟩

theorem spanPairs_pairwise {ks : List Int} (hs : List.Pairwise (· < ·) ks) :
    List.Pairwise (fun pr qr : Int × Int => pr.2 ≤ qr.1) (spanPairs ks) := by
  induction ks with
  | nil => simp [spanPairs]
  | cons a ks ih =>
    cases ks with
    | nil => simp [spanPairs]
    | cons b ks' =>
      rw [show spanPairs (a :: b :: ks') = (a, b) :: spanPairs (b :: ks') from rfl]
      rw [List.pairwise_cons]
      refine ⟨?_, ih (List.pairwise_cons.mp hs).2⟩
      intro qr hqr
      have := (spanPairs_mem_keys hqr).1
      rcases List.mem_cons.mp this with h | h
      · omega
      · have := (List.pairwise_cons.mp (List.pairwise_cons.mp hs).2).1 qr.1 h
        omega

theorem activeList_span_const {α : Type} (bs : List (Nat × Block α)) {ab : Int × Int}
    (hab : ab ∈ spanPairs (sortedKeys bs)) {p : Int} (h1 : ab.1 ≤ p) (h2 : p < ab.2) :
    activeList bs p = activeList bs ab.1 := by
  have hs := sortedKeys_pairwise bs
  have hgap := spanPairs_gap hs hab
  unfold activeList
  have hkeys : (sortedKeys bs).filter (fun c => decide (c ≤ p)) =
      (sortedKeys bs).filter (fun c => decide (c ≤ ab.1)) := by
    apply List.filter_congr
    intro c hc
    apply bool_eq_of_iff
    have := hgap c hc
    simp only [decide_eq_true_eq]
    omega
  rw [hkeys]
  apply congrArg
  apply flatMap_congr
  intro c _
  apply List.filter_congr
  intro q hq
  apply bool_eq_of_iff
  have hgs := hgap q.2.start ((mem_sortedKeys_iff bs q.2.start).mpr (isKey_of_mem_start hq))
  have hge := hgap q.2.«end» ((mem_sortedKeys_iff bs q.2.«end»).mpr (isKey_of_mem_end hq))
  simp only [activeCond, Bool.and_eq_true, Bool.or_eq_true, decide_eq_true_eq]
  omega

theorem filter_or_perm {α : Type} (l : List α) (p q : α → Bool)
    (hdis : ∀ a ∈ l, ¬(p a = true ∧ q a = true)) :
    List.Perm (l.filter p ++ l.filter q) (l.filter (fun a => p a || q a)) := by
  induction l with
  | nil => simp
  | cons hd tl ih =>
    have htl : ∀ a ∈ tl, ¬(p a = true ∧ q a = true) := fun a ha =>
      hdis a (List.mem_cons_of_mem _ ha)
    by_cases hp : p hd = true
    · have hq : ¬ q hd = true := fun h => hdis hd (List.mem_cons_self _ _) ⟨hp, h⟩
      rw [List.filter_cons_of_pos hp, List.filter_cons_of_neg (by simpa using hq),
        List.filter_cons_of_pos (by simp [hp])]
      exact (ih htl).cons hd
    · by_cases hq : q hd = true
      · rw [List.filter_cons_of_neg (by simpa using hp), List.filter_cons_of_pos hq,
          List.filter_cons_of_pos (by simp [hp, hq])]
        exact List.perm_middle.trans ((ih htl).cons hd)
      · rw [List.filter_cons_of_neg (by simpa using hp),
          List.filter_cons_of_neg (by simpa using hq),
          List.filter_cons_of_neg (by simp [hp, hq])]
        exact ih htl

theorem flatMap_groups_perm {α : Type} (bs : List (Nat × Block α)) (P : Nat × Block α → Bool) :
    ∀ ks : List Int, ks.Nodup →
      List.Perm (ks.flatMap (fun c => bs.filter (fun q => decide (q.2.start = c) && P q)))
        (bs.filter (fun q => decide (q.2.start ∈ ks) && P q)) := by
  intro ks
  induction ks with
  | nil =>
    intro _
    rw [List.flatMap_nil, List.filter_eq_nil_iff.mpr (fun q _ => by simp)]
  | cons c ks ih =>
    intro hnd
    rw [List.flatMap_cons]
    rw [List.nodup_cons] at hnd
    have hstep := (List.Perm.append_left
      (bs.filter (fun q => decide (q.2.start = c) && P q)) (ih hnd.2))
    refine hstep.trans ?_
    have hdis : ∀ q ∈ bs, ¬((decide (q.2.start = c) && P q) = true ∧
        (decide (q.2.start ∈ ks) && P q) = true) := by
      rintro q _ ⟨hc1, hc2⟩
      rw [Bool.and_eq_true, decide_eq_true_eq] at hc1 hc2
      exact hnd.1 (hc1.1 ▸ hc2.1)
    refine (filter_or_perm bs _ _ hdis).trans ?_
    rw [List.filter_congr]
    intro q _
    apply bool_eq_of_iff
    by_cases hP : P q = true
    · simp [hP, List.mem_cons]
    · simp [hP]

theorem sortedKeys_nodup {α : Type} (bs : List (Nat × Block α)) : (sortedKeys bs).Nodup :=
  (sortedKeys_pairwise bs).imp (fun h => ne_of_lt h)

theorem activeList_perm_filter {α : Type} (bs : List (Nat × Block α)) (K : Int) :
    List.Perm (activeList bs K)
      ((bs.filter (activeCond K)).map (fun q => (q.1, q.2.value))) := by
  unfold activeList
  have h1 := flatMap_groups_perm bs (activeCond K)
    ((sortedKeys bs).filter (fun c => decide (c ≤ K)))
    ((sortedKeys_nodup bs).filter _)
  have h2 : bs.filter
      (fun q => decide (q.2.start ∈ (sortedKeys bs).filter (fun c => decide (c ≤ K))) &&
        activeCond K q) = bs.filter (activeCond K) := by
    apply List.filter_congr
    intro q hq
    apply bool_eq_of_iff
    rw [Bool.and_eq_true, decide_eq_true_eq, List.mem_filter]
    constructor
    · rintro ⟨_, h⟩; exact h
    · intro h
      refine ⟨⟨(mem_sortedKeys_iff bs q.2.start).mpr (isKey_of_mem_start hq), ?_⟩, h⟩
      have := ((activeCond_iff K q).mp h).1
      simpa using this
  rw [h2] at h1
  exact h1.map _

theorem activeList_values_perm {α : Type} (bs : List (Nat × Block α)) (K : Int) :
    List.Perm ((activeList bs K).map Prod.snd)
      ((bs.filter (activeCond K)).map (fun q => q.2.value)) := by
  have h := (activeList_perm_filter bs K).map Prod.snd
  simpa [List.map_map] using h

theorem activeList_fst_nodup {α : Type} {bs : List (Nat × Block α)}
    (hnd : (bs.map Prod.fst).Nodup) (K : Int) :
    ((activeList bs K).map Prod.fst).Nodup := by
  have hp := (activeList_perm_filter bs K).map Prod.fst
  have heq : ((bs.filter (activeCond K)).map (fun q => (q.1, q.2.value))).map Prod.fst =
      (bs.filter (activeCond K)).map Prod.fst := by
    simp [List.map_map]
  rw [heq] at hp
  exact hp.nodup_iff.mpr (hnd.sublist ((List.filter_sublist bs).map Prod.fst))

theorem filter_activeCond_eq_covering {α : Type} {bs : List (Nat × Block α)}
    (hvalid : ∀ q ∈ bs, q.2.start ≤ q.2.«end») {ab : Int × Int}
    (hab : ab ∈ spanPairs (sortedKeys bs)) {p : Int} (h1 : ab.1 ≤ p) (h2 : p < ab.2) :
    bs.filter (activeCond ab.1) = coveringList bs p := by
  have hs := sortedKeys_pairwise bs
  have hgap := spanPairs_gap hs hab
  unfold coveringList
  apply List.filter_congr
  intro q hq
  apply bool_eq_of_iff
  have hgs := hgap q.2.start ((mem_sortedKeys_iff bs q.2.start).mpr (isKey_of_mem_start hq))
  have hge := hgap q.2.«end» ((mem_sortedKeys_iff bs q.2.«end»).mpr (isKey_of_mem_end hq))
  have hv := hvalid q hq
  simp only [activeCond, Bool.and_eq_true, Bool.or_eq_true, decide_eq_true_eq]
  omega

theorem mem_spansOut_iff {α β : Type} (agg : List α → β) (bs : List (Nat × Block α))
    (o : Block β) :
    o ∈ spansOut agg (fun b => b) bs ↔
      ∃ ab ∈ spanPairs (sortedKeys bs), ¬(activeList bs ab.1).isEmpty = true ∧
        o = { start := ab.1, «end» := ab.2,
              value := agg ((activeList bs ab.1).map Prod.snd) } := by
  unfold spansOut
  rw [List.mem_filterMap]
  constructor
  · rintro ⟨ab, hmem, hemit⟩
    unfold emitSpan at hemit
    by_cases h : (activeList bs ab.1).isEmpty
    · rw [if_pos h] at hemit
      exact absurd hemit (by simp)
    · rw [if_neg h] at hemit
      exact ⟨ab, hmem, h, (Option.some.inj hemit).symm⟩
  · rintro ⟨ab, hmem, hne, rfl⟩
    refine ⟨ab, hmem, ?_⟩
    unfold emitSpan
    rw [if_neg hne]

theorem filterMap_congr {α β : Type} {l : List α} {f g : α → Option β}
    (h : ∀ a ∈ l, f a = g a) : l.filterMap f = l.filterMap g := by
  induction l with
  | nil => simp
  | cons hd tl ih =>
    rw [List.filterMap_cons, List.filterMap_cons, h hd (List.mem_cons_self _ _),
      ih (fun a ha => h a (List.mem_cons_of_mem _ ha))]

theorem spansOut_map_post {α β γ : Type} (agg : List α → β) (post : Block β → γ)
    (bs : List (Nat × Block α)) :
    spansOut agg post bs = (spansOut agg (fun b => b) bs).map post := by
  unfold spansOut
  rw [List.map_filterMap]
  apply filterMap_congr
  intro ab _
  unfold emitSpan
  by_cases h : (activeList bs ab.1).isEmpty
  · simp [h]
  · simp [h]

theorem aggregate_map_post {ι α β γ : Type} (itemPreProcessor : ι → Block α)
    (aggregationFunction : List α → β) (itemPostProcessor : Block β → γ)
    (items : List ι) :
    aggregate itemPreProcessor aggregationFunction itemPostProcessor items =
      (aggregate itemPreProcessor aggregationFunction (fun b => b) items).map
        itemPostProcessor := by
  rw [aggregate_eq_spansOut, aggregate_eq_spansOut, spansOut_map_post]

/-! ## Emitted-block structure lemmas -/

theorem pairwise_filterMap {α β : Type} {R : α → α → Prop} {S : β → β → Prop}
    (f : α → Option β) {l : List α} (hl : List.Pairwise R l)
    (hf : ∀ a b, R a b → ∀ x ∈ f a, ∀ y ∈ f b, S x y) :
    List.Pairwise S (l.filterMap f) := by
  induction l with
  | nil => simp
  | cons hd tl ih =>
    rw [List.pairwise_cons] at hl
    rw [List.filterMap_cons]
    cases hfa : f hd with
    | none => exact ih hl.2
    | some x =>
      rw [List.pairwise_cons]
      refine ⟨?_, ih hl.2⟩
      intro y hy
      rw [List.mem_filterMap] at hy
      obtain ⟨b, hb, hfb⟩ := hy
      exact hf hd b (hl.1 b hb) x (Option.mem_def.mpr hfa) y (Option.mem_def.mpr hfb)

theorem spansOut_id_pairwise {α β : Type} (agg : List α → β) (bs : List (Nat × Block α)) :
    List.Pairwise (fun o1 o2 : Block β => o1.«end» ≤ o2.start)
      (spansOut agg (fun b => b) bs) := by
  unfold spansOut
  refine pairwise_filterMap _ (spanPairs_pairwise (sortedKeys_pairwise bs)) ?_
  intro a b hR x hx y hy
  unfold emitSpan at hx hy
  by_cases ha : (activeList bs a.1).isEmpty
  · rw [if_pos ha] at hx
    simp at hx
  · rw [if_neg ha] at hx
    by_cases hb : (activeList bs b.1).isEmpty
    · rw [if_pos hb] at hy
      simp at hy
    · rw [if_neg hb] at hy
      have hx' := Option.mem_def.mp hx
      have hy' := Option.mem_def.mp hy
      have hx2 : x.«end» = a.2 := by rw [← Option.some.inj hx']
      have hy2 : y.start = b.1 := by rw [← Option.some.inj hy']
      omega

theorem spansOut_id_start_lt_end {α β : Type} (agg : List α → β)
    (bs : List (Nat × Block α)) :
    ∀ o ∈ spansOut agg (fun b => b) bs, o.start < o.«end» := by
  intro o ho
  obtain ⟨ab, hmem, _, rfl⟩ := (mem_spansOut_iff agg bs o).mp ho
  exact spanPairs_lt (sortedKeys_pairwise bs) hmem

theorem filter_contains_singleton {β : Type} {p : Int} :
    ∀ {out : List (Block β)}, List.Pairwise (fun o1 o2 => o1.«end» ≤ o2.start) out →
      (∀ o ∈ out, o.start < o.«end») → ∀ {o : Block β}, o ∈ out →
      o.start ≤ p → p < o.«end» →
      out.filter (fun b => decide (b.start ≤ p) && decide (p < b.«end»)) = [o] := by
  intro out
  induction out with
  | nil =>
    intro _ _ o ho
    simp at ho
  | cons x rest ih =>
    intro hpw hlt o ho hp1 hp2
    rw [List.pairwise_cons] at hpw
    rcases List.mem_cons.mp ho with h | h
    · subst h
      rw [List.filter_cons_of_pos (by
        simp only [Bool.and_eq_true, decide_eq_true_eq]
        exact ⟨hp1, hp2⟩)]
      have hnil : rest.filter (fun b => decide (b.start ≤ p) && decide (p < b.«end»)) =
          [] := by
        rw [List.filter_eq_nil_iff]
        intro z hz
        have hR := hpw.1 z hz
        simp only [Bool.and_eq_true, decide_eq_true_eq, not_and]
        intro hz1
        omega
      rw [hnil]
    · have hxnot : ¬(decide (x.start ≤ p) && decide (p < x.«end»)) = true := by
        simp only [Bool.and_eq_true, decide_eq_true_eq, not_and]
        intro hx1
        have hR := hpw.1 o h
        omega
      have hstep : (x :: rest).filter
          (fun b => decide (b.start ≤ p) && decide (p < b.«end»)) =
          rest.filter (fun b => decide (b.start ≤ p) && decide (p < b.«end»)) :=
        List.filter_cons_of_neg hxnot
      rw [hstep]
      exact ih hpw.2 (fun z hz => hlt z (List.mem_cons_of_mem _ hz)) h hp1 hp2

theorem mem_blocksOf_val {ι α : Type} {itemPreProcessor : ι → Block α} {items : List ι}
    {q : Nat × Block α} (h : q ∈ blocksOf itemPreProcessor items) :
    ∃ it ∈ items, q.2 = itemPreProcessor it := by
  unfold blocksOf at h
  rw [List.mem_map] at h
  obtain ⟨r, hr, hq⟩ := h
  refine ⟨r.2, ?_, by rw [← hq]⟩
  have hmem : r.2 ∈ items.enum.map Prod.snd := List.mem_map_of_mem Prod.snd hr
  rwa [List.enum_map_snd] at hmem

theorem exists_mem_blocksOf {ι α : Type} (itemPreProcessor : ι → Block α) {items : List ι}
    {it : ι} (h : it ∈ items) :
    ∃ i : Nat, (i, itemPreProcessor it) ∈ blocksOf itemPreProcessor items := by
  have h2 : it ∈ items.enum.map Prod.snd := by rwa [List.enum_map_snd]
  rw [List.mem_map] at h2
  obtain ⟨r, hr, hit⟩ := h2
  refine ⟨r.1, ?_⟩
  unfold blocksOf
  have hmem := List.mem_map_of_mem (fun q => (q.1, itemPreProcessor q.2)) hr
  simpa [hit] using hmem

/-! ## Claim theorems -/

theorem not_isEmpty_of_mem {α : Type} {l : List α} {a : α} (h : a ∈ l) :
    ¬ l.isEmpty = true := by
  intro he
  cases l with
  | nil => simp at h
  | cons x xs => simp [List.isEmpty] at he

theorem covered_unique_value_le {α β : Type} (agg : List α → β)
    (bs : List (Nat × Block α))
    (hvalid : ∀ q ∈ bs, q.2.start ≤ q.2.«end») {p : Int}
    (hcov : ∃ q ∈ bs, q.2.start ≤ p ∧ p < q.2.«end») :
    ∃ o : Block β,
      (spansOut agg (fun b => b) bs).filter
          (fun b => decide (b.start ≤ p) && decide (p < b.«end»)) = [o] ∧
      ∃ l : List α, List.Perm l (coveringValues bs p) ∧ o.value = agg l := by
  obtain ⟨q0, hq0, hq1, hq2⟩ := hcov
  have hxmem : q0.2.start ∈ sortedKeys bs :=
    (mem_sortedKeys_iff _ _).mpr (isKey_of_mem_start hq0)
  have hymem : q0.2.«end» ∈ sortedKeys bs :=
    (mem_sortedKeys_iff _ _).mpr (isKey_of_mem_end hq0)
  obtain ⟨ab, habmem, hab1, hab2⟩ :=
    spanPairs_cover (sortedKeys_pairwise bs) _ _ p hxmem hymem hq1 hq2
  have hgapS := spanPairs_gap (sortedKeys_pairwise bs) habmem _ hxmem
  have hmemact : (q0.1, q0.2.value) ∈ activeList bs ab.1 := by
    rw [mem_activeList_iff]
    exact ⟨q0, hq0, rfl, rfl, (activeCond_iff _ _).mpr ⟨by omega, Or.inr (by omega)⟩⟩
  refine ⟨{ start := ab.1, «end» := ab.2,
            value := agg ((activeList bs ab.1).map Prod.snd) }, ?_, ?_⟩
  · exact filter_contains_singleton (spansOut_id_pairwise agg bs)
      (spansOut_id_start_lt_end agg bs)
      ((mem_spansOut_iff agg bs _).mpr ⟨ab, habmem, not_isEmpty_of_mem hmemact, rfl⟩)
      hab1 hab2
  · refine ⟨(activeList bs ab.1).map Prod.snd, ?_, rfl⟩
    have hperm := activeList_values_perm bs ab.1
    rw [filter_activeCond_eq_covering hvalid habmem hab1 hab2] at hperm
    unfold coveringValues
    exact hperm


/-- C1: for every input list of valid blocks (finite coordinates,
start < end) and pure callbacks, and every point `p` covered by at least
one input range, exactly one output block emitted by `aggregate` has
`[start, end)` containing `p`, and its aggregated value is the
aggregation function applied to exactly (a permutation of) the payloads
of the input ranges whose `[start, end)` contains `p`. -/
theorem C1_coverage_completeness {ι α β : Type} (itemPreProcessor : ι → Block α)
    (aggregationFunction : List α → β) (items : List ι) (p : Int)
    (hvalid : ∀ it ∈ items, (itemPreProcessor it).start < (itemPreProcessor it).«end»)
    (hcover : ∃ it ∈ items,
      (itemPreProcessor it).start ≤ p ∧ p < (itemPreProcessor it).«end») :
    ∃ o : Block β,
      (aggregate itemPreProcessor aggregationFunction (fun b => b) items).filter
          (fun b => decide (b.start ≤ p) && decide (p < b.«end»)) = [o] ∧
      ∃ l : List α,
        List.Perm l (coveringValues (blocksOf itemPreProcessor items) p) ∧
        o.value = aggregationFunction l := by
  obtain ⟨it, hit, hit1, hit2⟩ := hcover
  have hv : ∀ q ∈ blocksOf itemPreProcessor items, q.2.start ≤ q.2.«end» := by
    intro q hq
    obtain ⟨it2, hit2m, heq⟩ := mem_blocksOf_val hq
    rw [heq]
    exact le_of_lt (hvalid it2 hit2m)
  obtain ⟨i, hq0⟩ := exists_mem_blocksOf itemPreProcessor hit
  rw [aggregate_eq_spansOut]
  exact covered_unique_value_le aggregationFunction (blocksOf itemPreProcessor items)
    hv ⟨(i, itemPreProcessor it), hq0, hit1, hit2⟩

/-- Witness for C1 at a concrete input: blocks `[0,10)` and `[5,15)`
with point `p = 7`. -/
theorem C1_coverage_completeness_witness :
    (∀ it ∈ [(⟨0, 10, 3⟩ : Block Nat), ⟨5, 15, 4⟩],
      (id it).start < (id it).«end») ∧
    (∃ it ∈ [(⟨0, 10, 3⟩ : Block Nat), ⟨5, 15, 4⟩],
      (id it).start ≤ 7 ∧ 7 < (id it).«end») ∧
    (∃ o : Block (List Nat),
      (aggregate id (fun l => l) (fun b => b)
          [(⟨0, 10, 3⟩ : Block Nat), ⟨5, 15, 4⟩]).filter
          (fun b => decide (b.start ≤ 7) && decide (7 < b.«end»)) = [o] ∧
      ∃ l : List Nat,
        List.Perm l (coveringValues (blocksOf id [(⟨0, 10, 3⟩ : Block Nat), ⟨5, 15, 4⟩]) 7) ∧
        o.value = l) :=
  ⟨by decide, by decide,
    C1_coverage_completeness id (fun l => l) [(⟨0, 10, 3⟩ : Block Nat), ⟨5, 15, 4⟩] 7
      (by decide) (by decide)⟩

/-- Every covered point lies inside some emitted output block (general
inputs; `q` is any input block covering `p`). -/
theorem covered_mem_spansOut {α β : Type} (agg : List α → β) (bs : List (Nat × Block α))
    {p : Int} {q : Nat × Block α} (hq : q ∈ coveringList bs p) :
    ∃ o ∈ spansOut agg (fun b => b) bs, o.start ≤ p ∧ p < o.«end» := by
  rw [coveringList, List.mem_filter] at hq
  have hq1 : q.2.start ≤ p := by
    have := hq.2
    simp only [Bool.and_eq_true, decide_eq_true_eq] at this
    exact this.1
  have hq2 : p < q.2.«end» := by
    have := hq.2
    simp only [Bool.and_eq_true, decide_eq_true_eq] at this
    exact this.2
  have hxmem : q.2.start ∈ sortedKeys bs :=
    (mem_sortedKeys_iff _ _).mpr (isKey_of_mem_start hq.1)
  have hymem : q.2.«end» ∈ sortedKeys bs :=
    (mem_sortedKeys_iff _ _).mpr (isKey_of_mem_end hq.1)
  obtain ⟨ab, habmem, hab1, hab2⟩ :=
    spanPairs_cover (sortedKeys_pairwise bs) _ _ p hxmem hymem hq1 hq2
  have hgapS := spanPairs_gap (sortedKeys_pairwise bs) habmem _ hxmem
  have hmemact : (q.1, q.2.value) ∈ activeList bs ab.1 := by
    rw [mem_activeList_iff]
    exact ⟨q, hq.1, rfl, rfl, (activeCond_iff _ _).mpr ⟨by omega, Or.inr (by omega)⟩⟩
  exact ⟨{ start := ab.1, «end» := ab.2,
           value := agg ((activeList bs ab.1).map Prod.snd) },
    (mem_spansOut_iff agg bs _).mpr ⟨ab, habmem, not_isEmpty_of_mem hmemact, rfl⟩,
    hab1, hab2⟩

theorem chain_gap_aux {α β : Type} (bs : List (Nat × Block α)) :
    ∀ (l2 l1 : List (Block β)),
      List.Pairwise (fun o1 o2 => o1.«end» ≤ o2.start) (l1 ++ l2) →
      (∀ o ∈ l1 ++ l2, o.start < o.«end») →
      (∀ p : Int, coveringList bs p ≠ [] → ∃ o ∈ l1 ++ l2, o.start ≤ p ∧ p < o.«end») →
      List.Chain' (fun o1 o2 => ∀ p : Int, o1.«end» ≤ p → p < o2.start →
        coveringList bs p = []) l2 := by
  intro l2
  induction l2 with
  | nil => intro l1 _ _ _; simp
  | cons x rest ih =>
    intro l1 hpw hlt hcov
    cases rest with
    | nil => simp
    | cons y rest' =>
      rw [List.chain'_cons]
      constructor
      · intro p hp1 hp2
        by_contra hne
        obtain ⟨o3, ho3, h1, h2⟩ := hcov p hne
        have hxlt := hlt x (by simp)
        have hylt := hlt y (by simp)
        rw [List.mem_append] at ho3
        rcases ho3 with h | h
        · have hR := (List.pairwise_append.mp hpw).2.2 o3 h x (by simp)
          omega
        · rcases List.mem_cons.mp h with h | h
          · rw [h] at h1 h2
            omega
          · rcases List.mem_cons.mp h with h | h
            · rw [h] at h1 h2
              omega
            · have hl2 := (List.pairwise_append.mp hpw).2.1
              have hR := (List.pairwise_cons.mp (List.pairwise_cons.mp hl2).2).1 o3 h
              omega
      · have hre : (l1 ++ [x]) ++ (y :: rest') = l1 ++ (x :: y :: rest') := by
          simp
        refine ih (l1 ++ [x]) ?_ ?_ ?_
        · rw [hre]; exact hpw
        · rw [hre]; exact hlt
        · rw [hre]; exact hcov

theorem spansOut_id_chain {α β : Type} (agg : List α → β) (bs : List (Nat × Block α)) :
    List.Chain' (fun o1 o2 : Block β => ∀ p : Int, o1.«end» ≤ p → p < o2.start →
      coveringList bs p = []) (spansOut agg (fun b => b) bs) := by
  refine chain_gap_aux bs (spansOut agg (fun b => b) bs) [] ?_ ?_ ?_
  · simpa using spansOut_id_pairwise agg bs
  · simpa using spansOut_id_start_lt_end agg bs
  · intro p hne
    obtain ⟨q, hq⟩ : ∃ q, q ∈ coveringList bs p := by
      cases h : coveringList bs p with
      | nil => exact absurd h hne
      | cons a l => exact ⟨a, by simp [h]⟩
    simpa using covered_mem_spansOut agg bs hq

/-- C4: for every input (valid or not), each emitted output block has
`start < end`, the blocks are strictly ascending and non-overlapping,
any gap between two emitted blocks that are adjacent in the output is
uncovered territory, and the formatter is applied exactly once per
emitted span, in ascending span order. -/
theorem C4_output_ordering {ι α β γ : Type} (itemPreProcessor : ι → Block α)
    (aggregationFunction : List α → β) (itemPostProcessor : Block β → γ)
    (items : List ι) :
    (∀ o ∈ aggregate itemPreProcessor aggregationFunction (fun b => b) items,
      o.start < o.«end») ∧
    List.Pairwise (fun o1 o2 : Block β => o1.«end» ≤ o2.start)
      (aggregate itemPreProcessor aggregationFunction (fun b => b) items) ∧
    List.Chain' (fun o1 o2 : Block β => ∀ p : Int, o1.«end» ≤ p → p < o2.start →
        coveringList (blocksOf itemPreProcessor items) p = [])
      (aggregate itemPreProcessor aggregationFunction (fun b => b) items) ∧
    aggregate itemPreProcessor aggregationFunction itemPostProcessor items =
      (aggregate itemPreProcessor aggregationFunction (fun b => b) items).map
        itemPostProcessor := by
  refine ⟨?_, ?_, ?_, aggregate_map_post _ _ _ _⟩
  · rw [aggregate_eq_spansOut]
    exact spansOut_id_start_lt_end aggregationFunction (blocksOf itemPreProcessor items)
  · rw [aggregate_eq_spansOut]
    exact spansOut_id_pairwise aggregationFunction (blocksOf itemPreProcessor items)
  · rw [aggregate_eq_spansOut]
    exact spansOut_id_chain aggregationFunction (blocksOf itemPreProcessor items)

/-- Witness for C4 at a concrete input. -/
theorem C4_output_ordering_witness :
    (∀ o ∈ aggregate id (fun l : List Nat => l) (fun b => b)
        [(⟨0, 10, 3⟩ : Block Nat), ⟨5, 15, 4⟩], o.start < o.«end») ∧
    List.Pairwise (fun o1 o2 : Block (List Nat) => o1.«end» ≤ o2.start)
      (aggregate id (fun l : List Nat => l) (fun b => b)
        [(⟨0, 10, 3⟩ : Block Nat), ⟨5, 15, 4⟩]) ∧
    List.Chain' (fun o1 o2 : Block (List Nat) => ∀ p : Int, o1.«end» ≤ p → p < o2.start →
        coveringList (blocksOf id [(⟨0, 10, 3⟩ : Block Nat), ⟨5, 15, 4⟩]) p = [])
      (aggregate id (fun l : List Nat => l) (fun b => b)
        [(⟨0, 10, 3⟩ : Block Nat), ⟨5, 15, 4⟩]) ∧
    aggregate id (fun l : List Nat => l) (fun b => (b.start, b.«end», b.value))
        [(⟨0, 10, 3⟩ : Block Nat), ⟨5, 15, 4⟩] =
      (aggregate id (fun l : List Nat => l) (fun b => b)
        [(⟨0, 10, 3⟩ : Block Nat), ⟨5, 15, 4⟩]).map (fun b => (b.start, b.«end», b.value)) :=
  C4_output_ordering id (fun l => l) (fun b => (b.start, b.«end», b.value))
    [(⟨0, 10, 3⟩ : Block Nat), ⟨5, 15, 4⟩]

/-- C5: no output block is ever emitted for a sub-range over which the
active set is empty; in particular every point inside an emitted block
has a non-empty active set, and (for valid inputs) is covered by some
input range — so no block is emitted over the gap between disjoint
ranges and no aggregation happens there. -/
theorem C5_no_spurious_spans {ι α β : Type} (itemPreProcessor : ι → Block α)
    (aggregationFunction : List α → β) (items : List ι) (o : Block β) (p : Int)
    (ho : o ∈ aggregate itemPreProcessor aggregationFunction (fun b => b) items)
    (hp1 : o.start ≤ p) (hp2 : p < o.«end») :
    activeList (blocksOf itemPreProcessor items) p ≠ [] ∧
    ((∀ it ∈ items, (itemPreProcessor it).start < (itemPreProcessor it).«end») →
      coveringList (blocksOf itemPreProcessor items) p ≠ []) := by
  rw [aggregate_eq_spansOut] at ho
  obtain ⟨ab, habmem, hne, rfl⟩ :=
    (mem_spansOut_iff aggregationFunction (blocksOf itemPreProcessor items) o).mp ho
  have hab1 : ab.1 ≤ p := hp1
  have hab2 : p < ab.2 := hp2
  have hconst : activeList (blocksOf itemPreProcessor items) p =
      activeList (blocksOf itemPreProcessor items) ab.1 :=
    activeList_span_const _ habmem hab1 hab2
  have hmem : ∃ e, e ∈ activeList (blocksOf itemPreProcessor items) ab.1 := by
    cases hal : activeList (blocksOf itemPreProcessor items) ab.1 with
    | nil =>
      rw [hal] at hne
      simp [List.isEmpty] at hne
    | cons a l => exact ⟨a, by simp [hal]⟩
  constructor
  · rw [hconst]
    intro h
    obtain ⟨e, he⟩ := hmem
    rw [h] at he
    simp at he
  · intro hvalid hnil
    obtain ⟨e, he⟩ := hmem
    obtain ⟨ia, va⟩ := e
    obtain ⟨q, hqbs, _, _, hcond⟩ := (mem_activeList_iff _ _ _ _).mp he
    have hv : q.2.start < q.2.«end» := by
      obtain ⟨it', hit', heq⟩ := mem_blocksOf_val hqbs
      rw [heq]
      exact hvalid it' hit'
    have hcond' := (activeCond_iff _ _).mp hcond
    have hgapE := spanPairs_gap (sortedKeys_pairwise (blocksOf itemPreProcessor items))
      habmem q.2.«end» ((mem_sortedKeys_iff _ _).mpr (isKey_of_mem_end hqbs))
    have hqcov : q ∈ coveringList (blocksOf itemPreProcessor items) p := by
      rw [coveringList, List.mem_filter]
      refine ⟨hqbs, ?_⟩
      simp only [Bool.and_eq_true, decide_eq_true_eq]
      omega
    rw [hnil] at hqcov
    simp at hqcov

/-- Witness for C5 at a concrete input: the single block of
`[{0,5,1}]` emits span `[0,5)` and the point `2` lies inside it. -/
theorem C5_no_spurious_spans_witness :
    ∃ o ∈ aggregate id (fun l : List Nat => l) (fun b => b) [(⟨0, 5, 1⟩ : Block Nat)],
      o.start ≤ 2 ∧ 2 < o.«end» ∧
      (activeList (blocksOf id [(⟨0, 5, 1⟩ : Block Nat)]) 2 ≠ [] ∧
        ((∀ it ∈ [(⟨0, 5, 1⟩ : Block Nat)], (id it).start < (id it).«end») →
          coveringList (blocksOf id [(⟨0, 5, 1⟩ : Block Nat)]) 2 ≠ [])) := by
  refine ⟨{ start := 0, «end» := 5, value := [1] }, by decide, by decide, by decide, ?_⟩
  exact C5_no_spurious_spans id (fun l => l) [(⟨0, 5, 1⟩ : Block Nat)]
    { start := 0, «end» := 5, value := [1] } 2 (by decide) (by decide) (by decide)

/-- C3: arrivals are inserted before departures at every event key, so
coverage is half-open `[start, end)`: a valid block contributes to the
active set of the span beginning at its start coordinate (and that span
is emitted, aggregating the active payloads), and it never occupies the
active set at or after its end coordinate — also when another block
starts exactly where it ends. -/
theorem C3_half_open_coverage {ι α β : Type} (itemPreProcessor : ι → Block α)
    (aggregationFunction : List α → β) (items : List ι) (i : Nat) (b : Block α)
    (hvalid : ∀ it ∈ items, (itemPreProcessor it).start < (itemPreProcessor it).«end»)
    (hmem : (i, b) ∈ blocksOf itemPreProcessor items) :
    (i, b.value) ∈ activeList (blocksOf itemPreProcessor items) b.start ∧
    (∃ o ∈ aggregate itemPreProcessor aggregationFunction (fun x => x) items,
      o.start = b.start) ∧
    (∀ o ∈ aggregate itemPreProcessor aggregationFunction (fun x => x) items,
      o.value = aggregationFunction
        ((activeList (blocksOf itemPreProcessor items) o.start).map Prod.snd)) ∧
    (∀ K : Int, b.«end» ≤ K → ∀ v : α,
      (i, v) ∉ activeList (blocksOf itemPreProcessor items) K) := by
  have hv : ∀ q ∈ blocksOf itemPreProcessor items, q.2.start < q.2.«end» := by
    intro q hq
    obtain ⟨it', hit', heq⟩ := mem_blocksOf_val hq
    rw [heq]
    exact hvalid it' hit'
  have hvb : b.start < b.«end» := hv (i, b) hmem
  have hxmem : b.start ∈ sortedKeys (blocksOf itemPreProcessor items) :=
    (mem_sortedKeys_iff _ _).mpr (isKey_of_mem_start hmem)
  have hymem : b.«end» ∈ sortedKeys (blocksOf itemPreProcessor items) :=
    (mem_sortedKeys_iff _ _).mpr (isKey_of_mem_end hmem)
  have hmemact : (i, b.value) ∈ activeList (blocksOf itemPreProcessor items) b.start := by
    rw [mem_activeList_iff]
    exact ⟨(i, b), hmem, rfl, rfl,
      (activeCond_iff _ _).mpr ⟨le_refl _, Or.inr hvb⟩⟩
  refine ⟨hmemact, ?_, ?_, ?_⟩
  · obtain ⟨ab, habmem, hab1, hab2⟩ :=
      spanPairs_cover (sortedKeys_pairwise (blocksOf itemPreProcessor items)) _ _ b.start
        hxmem hymem (le_refl _) hvb
    have hgapS := spanPairs_gap (sortedKeys_pairwise (blocksOf itemPreProcessor items))
      habmem b.start hxmem
    have hab1' : ab.1 = b.start := by omega
    have hconst : activeList (blocksOf itemPreProcessor items) b.start =
        activeList (blocksOf itemPreProcessor items) ab.1 := by rw [hab1']
    rw [hconst] at hmemact
    refine ⟨{ start := ab.1, «end» := ab.2,
              value := aggregationFunction
                ((activeList (blocksOf itemPreProcessor items) ab.1).map Prod.snd) },
      ?_, hab1'⟩
    rw [aggregate_eq_spansOut]
    exact (mem_spansOut_iff aggregationFunction (blocksOf itemPreProcessor items) _).mpr
      ⟨ab, habmem, not_isEmpty_of_mem hmemact, rfl⟩
  · intro o ho
    rw [aggregate_eq_spansOut] at ho
    obtain ⟨ab, habmem, hne, rfl⟩ :=
      (mem_spansOut_iff aggregationFunction (blocksOf itemPreProcessor items) o).mp ho
    rfl
  · intro K hK v hmemK
    obtain ⟨q, hqbs, hq1, _, hcond⟩ := (mem_activeList_iff _ _ _ _).mp hmemK
    have hq : q = (i, b) := key_unique (blocksOf_nodup itemPreProcessor items) hqbs hmem hq1
    rw [hq] at hcond
    have hcond' := (activeCond_iff _ _).mp hcond
    have h1 : b.start ≤ K := hcond'.1
    have h2 : b.«end» < b.start ∨ K < b.«end» := hcond'.2
    omega

/-- Witness for C3 at a concrete input: block `[0,5)` with id 0, where a
second block `[5,9)` starts exactly at its end coordinate. -/
theorem C3_half_open_coverage_witness :
    (∀ it ∈ [(⟨0, 5, 1⟩ : Block Nat), ⟨5, 9, 2⟩], (id it).start < (id it).«end») ∧
    ((0, (⟨0, 5, 1⟩ : Block Nat)) ∈ blocksOf id [(⟨0, 5, 1⟩ : Block Nat), ⟨5, 9, 2⟩]) ∧
    ((0, 1) ∈ activeList (blocksOf id [(⟨0, 5, 1⟩ : Block Nat), ⟨5, 9, 2⟩]) 0 ∧
    (∃ o ∈ aggregate id (fun l : List Nat => l) (fun x => x)
        [(⟨0, 5, 1⟩ : Block Nat), ⟨5, 9, 2⟩], o.start = 0) ∧
    (∀ o ∈ aggregate id (fun l : List Nat => l) (fun x => x)
        [(⟨0, 5, 1⟩ : Block Nat), ⟨5, 9, 2⟩],
      o.value = (activeList (blocksOf id [(⟨0, 5, 1⟩ : Block Nat), ⟨5, 9, 2⟩])
        o.start).map Prod.snd) ∧
    (∀ K : Int, (5 : Int) ≤ K → ∀ v : Nat,
      (0, v) ∉ activeList (blocksOf id [(⟨0, 5, 1⟩ : Block Nat), ⟨5, 9, 2⟩]) K)) :=
  ⟨by decide, by decide,
    C3_half_open_coverage id (fun l => l) [(⟨0, 5, 1⟩ : Block Nat), ⟨5, 9, 2⟩] 0
      ⟨0, 5, 1⟩ (by decide) (by decide)⟩

theorem treeGet_buildTree_of_isKey {α : Type} {bs : List (Nat × Block α)} {k : Int}
    (h : isKey bs k = true) :
    treeGet (buildTree bs) k = some (nodeSpec bs k) := by
  cases hg : treeGet (buildTree bs) k with
  | none =>
    rw [treeGet_eq_none_iff] at hg
    exact absurd ((mem_sortedKeys_iff bs k).mpr h) hg
  | some nv =>
    have hoe := getOrEmpty_buildTree bs k
    rw [getOrEmpty, hg] at hoe
    simp only [Option.getD_some] at hoe
    rw [hoe]

theorem tree_nodes_spec {α : Type} (bs : List (Nat × Block α)) :
    ∀ r ∈ buildTree bs, r.2 = nodeSpec bs r.1 := by
  intro r hr
  have hget : treeGet (buildTree bs) r.1 = some r.2 := by
    obtain ⟨k, n⟩ := r
    exact treeGet_eq_some_of_mem (buildTree_sorted bs) hr
  have hoe := getOrEmpty_buildTree bs r.1
  rw [getOrEmpty, hget] at hoe
  simpa using hoe

theorem flatMap_comp_fst {α γ : Type} (t : List (Int × NodeValue α)) (g : Int → List γ) :
    t.flatMap (fun r => g r.1) = (t.map Prod.fst).flatMap g := by
  induction t with
  | nil => simp
  | cons hd tl ih => simp [List.flatMap_cons, ih]

theorem flatMap_map_outside {α β γ : Type} (l : List α) (g : α → List β) (f : β → γ) :
    l.flatMap (fun a => (g a).map f) = (l.flatMap g).map f := by
  induction l with
  | nil => simp
  | cons hd tl ih => simp [List.flatMap_cons, ih]

theorem flatMap_groups_perm_end {α : Type} (bs : List (Nat × Block α))
    (P : Nat × Block α → Bool) :
    ∀ ks : List Int, ks.Nodup →
      List.Perm (ks.flatMap (fun c => bs.filter (fun q => decide (q.2.«end» = c) && P q)))
        (bs.filter (fun q => decide (q.2.«end» ∈ ks) && P q)) := by
  intro ks
  induction ks with
  | nil =>
    intro _
    rw [List.flatMap_nil, List.filter_eq_nil_iff.mpr (fun q _ => by simp)]
  | cons c ks ih =>
    intro hnd
    rw [List.flatMap_cons]
    rw [List.nodup_cons] at hnd
    have hstep := (List.Perm.append_left
      (bs.filter (fun q => decide (q.2.«end» = c) && P q)) (ih hnd.2))
    refine hstep.trans ?_
    have hdis : ∀ q ∈ bs, ¬((decide (q.2.«end» = c) && P q) = true ∧
        (decide (q.2.«end» ∈ ks) && P q) = true) := by
      rintro q _ ⟨hc1, hc2⟩
      rw [Bool.and_eq_true, decide_eq_true_eq] at hc1 hc2
      exact hnd.1 (hc1.1 ▸ hc2.1)
    refine (filter_or_perm bs _ _ hdis).trans ?_
    rw [List.filter_congr]
    intro q _
    apply bool_eq_of_iff
    by_cases hP : P q = true
    · simp [hP, List.mem_cons]
    · simp [hP]

theorem startIds_perm_range {α : Type} (bs : List (Nat × Block α)) :
    List.Perm ((buildTree bs).flatMap (fun r => r.2.start.map Prod.fst))
      (bs.map Prod.fst) := by
  have h1 : (buildTree bs).flatMap (fun r => r.2.start.map Prod.fst) =
      (sortedKeys bs).flatMap (fun k => (bs.filter (fun q => decide (q.2.start = k))).map
        Prod.fst) := by
    have hcongr : (buildTree bs).flatMap (fun r => r.2.start.map Prod.fst) =
        (buildTree bs).flatMap
          (fun r => (bs.filter (fun q => decide (q.2.start = r.1))).map Prod.fst) :=
      flatMap_congr (fun r hr => by rw [tree_nodes_spec bs r hr, nodeSpec_start_map_fst])
    rw [hcongr]
    exact flatMap_comp_fst (buildTree bs)
      (fun k => (bs.filter (fun q => decide (q.2.start = k))).map Prod.fst)
  rw [h1]
  have h2 : (sortedKeys bs).flatMap
      (fun k => (bs.filter (fun q => decide (q.2.start = k))).map Prod.fst) =
      ((sortedKeys bs).flatMap
        (fun k => bs.filter (fun q => decide (q.2.start = k) && true))).map Prod.fst := by
    rw [← flatMap_map_outside]
    apply flatMap_congr
    intro c _
    rw [List.filter_congr]
    intro q _
    simp
  rw [h2]
  refine List.Perm.map Prod.fst ?_
  refine (flatMap_groups_perm bs (fun _ => true) (sortedKeys bs)
    (sortedKeys_nodup bs)).trans ?_
  rw [List.filter_eq_self.mpr]
  intro q hq
  simp only [Bool.and_true, decide_eq_true_eq]
  exact (mem_sortedKeys_iff bs q.2.start).mpr (isKey_of_mem_start hq)

theorem endIds_perm_range {α : Type} (bs : List (Nat × Block α)) :
    List.Perm ((buildTree bs).flatMap (fun r => r.2.«end»))
      (bs.map Prod.fst) := by
  have h1 : (buildTree bs).flatMap (fun r => r.2.«end») =
      (sortedKeys bs).flatMap
        (fun k => (bs.filter (fun q => decide (q.2.«end» = k))).map Prod.fst) := by
    have hcongr : (buildTree bs).flatMap (fun r => r.2.«end») =
        (buildTree bs).flatMap
          (fun r => (bs.filter (fun q => decide (q.2.«end» = r.1))).map Prod.fst) :=
      flatMap_congr (fun r hr => by rw [tree_nodes_spec bs r hr]; rfl)
    rw [hcongr]
    exact flatMap_comp_fst (buildTree bs)
      (fun k => (bs.filter (fun q => decide (q.2.«end» = k))).map Prod.fst)
  rw [h1]
  have h2 : (sortedKeys bs).flatMap
      (fun k => (bs.filter (fun q => decide (q.2.«end» = k))).map Prod.fst) =
      ((sortedKeys bs).flatMap
        (fun k => bs.filter (fun q => decide (q.2.«end» = k) && true))).map Prod.fst := by
    rw [← flatMap_map_outside]
    apply flatMap_congr
    intro c _
    rw [List.filter_congr]
    intro q _
    simp
  rw [h2]
  refine List.Perm.map Prod.fst ?_
  refine (flatMap_groups_perm_end bs (fun _ => true) (sortedKeys bs)
    (sortedKeys_nodup bs)).trans ?_
  rw [List.filter_eq_self.mpr]
  intro q hq
  simp only [Bool.and_true, decide_eq_true_eq]
  exact (mem_sortedKeys_iff bs q.2.«end»).mpr (isKey_of_mem_end hq)

/-- C6: index construction is faithful and lossless.  For each input
item at ordinal position `i` normalized to block `b`, the pair
`(i, b.payload)` sits in the arrival list of the node at key `b.start`
and `i` sits in the departure list of the node at key `b.end`; every
node's lists are exactly the arrivals/departures at its key in input
order; and each id `0..n-1` occurs exactly once among all arrival lists
and exactly once among all departure lists, regardless of duplicate
coordinates. -/
theorem C6_index_construction {ι α : Type} (itemPreProcessor : ι → Block α)
    (items : List ι) :
    (∀ q ∈ blocksOf itemPreProcessor items,
      ∃ nv, treeGet (createRedBlackTree itemPreProcessor items) q.2.start = some nv ∧
        (q.1, q.2.value) ∈ nv.start ∧
        ∃ nv2, treeGet (createRedBlackTree itemPreProcessor items) q.2.«end» = some nv2 ∧
          q.1 ∈ nv2.«end») ∧
    (∀ (k : Int) (nv : NodeValue α),
      treeGet (createRedBlackTree itemPreProcessor items) k = some nv →
      nv = nodeSpec (blocksOf itemPreProcessor items) k) ∧
    List.Perm ((createRedBlackTree itemPreProcessor items).flatMap
      (fun r => r.2.start.map Prod.fst)) (List.range items.length) ∧
    List.Perm ((createRedBlackTree itemPreProcessor items).flatMap (fun r => r.2.«end»))
      (List.range items.length) := by
  rw [createRedBlackTree_eq_buildTree]
  refine ⟨?_, ?_, ?_, ?_⟩
  · intro q hq
    refine ⟨nodeSpec (blocksOf itemPreProcessor items) q.2.start,
      treeGet_buildTree_of_isKey (isKey_of_mem_start hq), ?_,
      nodeSpec (blocksOf itemPreProcessor items) q.2.«end»,
      treeGet_buildTree_of_isKey (isKey_of_mem_end hq), ?_⟩
    · exact List.mem_map_of_mem _ (List.mem_filter.mpr ⟨hq, by simp⟩)
    · exact List.mem_map_of_mem Prod.fst (List.mem_filter.mpr ⟨hq, by simp⟩)
  · intro k nv hget
    have hoe := getOrEmpty_buildTree (blocksOf itemPreProcessor items) k
    rw [getOrEmpty, hget] at hoe
    simpa using hoe
  · rw [← blocksOf_map_fst itemPreProcessor items]
    exact startIds_perm_range (blocksOf itemPreProcessor items)
  · rw [← blocksOf_map_fst itemPreProcessor items]
    exact endIds_perm_range (blocksOf itemPreProcessor items)

/-- Witness for C6 at a concrete input where two blocks share both
coordinates. -/
theorem C6_index_construction_witness :
    (∀ q ∈ blocksOf id [(⟨0, 5, 1⟩ : Block Nat), ⟨0, 5, 2⟩],
      ∃ nv, treeGet (createRedBlackTree id [(⟨0, 5, 1⟩ : Block Nat), ⟨0, 5, 2⟩])
          q.2.start = some nv ∧
        (q.1, q.2.value) ∈ nv.start ∧
        ∃ nv2, treeGet (createRedBlackTree id [(⟨0, 5, 1⟩ : Block Nat), ⟨0, 5, 2⟩])
            q.2.«end» = some nv2 ∧
          q.1 ∈ nv2.«end») ∧
    (∀ (k : Int) (nv : NodeValue Nat),
      treeGet (createRedBlackTree id [(⟨0, 5, 1⟩ : Block Nat), ⟨0, 5, 2⟩]) k = some nv →
      nv = nodeSpec (blocksOf id [(⟨0, 5, 1⟩ : Block Nat), ⟨0, 5, 2⟩]) k) ∧
    List.Perm ((createRedBlackTree id [(⟨0, 5, 1⟩ : Block Nat), ⟨0, 5, 2⟩]).flatMap
      (fun r => r.2.start.map Prod.fst)) (List.range 2) ∧
    List.Perm ((createRedBlackTree id [(⟨0, 5, 1⟩ : Block Nat), ⟨0, 5, 2⟩]).flatMap
      (fun r => r.2.«end»)) (List.range 2) :=
  C6_index_construction id [(⟨0, 5, 1⟩ : Block Nat), ⟨0, 5, 2⟩]

/-! ## C2: the per-key emission discipline -/

/-- Modelled from the spec: the per-key procedure exactly as §4.3 of the
specification words it — iterating event keys in ascending order, at the
current key `k` first insert `k`'s arrivals, then remove `k`'s
departures, and then, if a previous key is defined and the active set is
non-empty after the departures at `k`, emit
`OutputBlock{previousKey, k, aggregated value of the active set}`. -/
def claimedScan {α β γ : Type} (aggregationFunction : List α → β)
    (itemPostProcessor : Block β → γ) (nodes : Int → NodeValue α) :
    List Int → Option Int → List (Nat × α) → List γ
  | [], _, _ => []
  | k :: ks, prev, nodeValues =>
    let nodeValues' := applyNode nodeValues (nodes k)
    match prev with
    | none => claimedScan aggregationFunction itemPostProcessor nodes ks (some k) nodeValues'
    | some pk =>
      if nodeValues'.isEmpty then
        claimedScan aggregationFunction itemPostProcessor nodes ks (some k) nodeValues'
      else
        itemPostProcessor { start := pk, «end» := k,
                            value := aggregationFunction (nodeValues'.map Prod.snd) } ::
          claimedScan aggregationFunction itemPostProcessor nodes ks (some k) nodeValues'

/-- Modelled from the spec: `aggregate` as C2 describes it — build the
index, then run the claimed per-key procedure over the event keys with
no previous key and an empty active set. -/
def claimedAggregate {ι α β γ : Type} (itemPreProcessor : ι → Block α)
    (aggregationFunction : List α → β) (itemPostProcessor : Block β → γ)
    (items : List ι) : List γ :=
  let tree := createRedBlackTree itemPreProcessor items
  claimedScan aggregationFunction itemPostProcessor (fun k => getOrEmpty tree k)
    (treeKeys tree) none []

/-- The per-key discipline the code actually implements: at the current
key `k`, when a previous key is defined and the active set — as left by
the previous key's events, before `k`'s arrivals and departures are
applied — is non-empty, first emit `OutputBlock{previousKey, k, agg}`,
and only then apply `k`'s arrivals and departures. -/
def emitThenApplyScan {α β γ : Type} (aggregationFunction : List α → β)
    (itemPostProcessor : Block β → γ) (nodes : Int → NodeValue α) :
    List Int → Option Int → List (Nat × α) → List γ
  | [], _, _ => []
  | k :: ks, prev, nodeValues =>
    let rest := emitThenApplyScan aggregationFunction itemPostProcessor nodes ks (some k)
      (applyNode nodeValues (nodes k))
    match prev with
    | none => rest
    | some pk =>
      if nodeValues.isEmpty then rest
      else
        itemPostProcessor { start := pk, «end» := k,
                            value := aggregationFunction (nodeValues.map Prod.snd) } ::
          rest

theorem scanLoop_eq_emitThenApply_aux {α β γ : Type} (agg : List α → β)
    (post : Block β → γ) (nodes : Int → NodeValue α) :
    ∀ (t : Tree α), (∀ q ∈ t, nodes q.1 = q.2) →
      ∀ (k : Int) (n : NodeValue α) (nodeValues : List (Nat × α)),
      scanLoop agg post ((k, n) :: t) nodeValues =
        emitThenApplyScan agg post nodes (treeKeys t) (some k)
          (applyNode nodeValues n) := by
  intro t
  induction t with
  | nil =>
    intro _ k n nodeValues
    rfl
  | cons hd tl ih =>
    intro hnodes k n nodeValues
    obtain ⟨k', n'⟩ := hd
    have hk' : nodes k' = n' := hnodes (k', n') (List.mem_cons_self _ _)
    have hrest := ih (fun q hq => hnodes q (List.mem_cons_of_mem _ hq)) k' n'
      (applyNode nodeValues n)
    show (if (applyNode nodeValues n).isEmpty then
        scanLoop agg post ((k', n') :: tl) (applyNode nodeValues n)
      else post { start := k, «end» := k', value := agg ((applyNode nodeValues n).map Prod.snd) } ::
        scanLoop agg post ((k', n') :: tl) (applyNode nodeValues n)) = _
    rw [hrest]
    show _ = (if (applyNode nodeValues n).isEmpty then
        emitThenApplyScan agg post nodes (treeKeys tl) (some k')
          (applyNode (applyNode nodeValues n) (nodes k'))
      else post { start := k, «end» := k', value := agg ((applyNode nodeValues n).map Prod.snd) } ::
        emitThenApplyScan agg post nodes (treeKeys tl) (some k')
          (applyNode (applyNode nodeValues n) (nodes k')))
    rw [hk']

/-- C2 amended: the engine emits `OutputBlock{previousKey, k, agg}` at
the current key `k` exactly when the previous key is defined and the
active set as left by the previous key's events (before `k`'s arrivals
and departures are applied) is non-empty; the aggregation uses that set,
and `k`'s events are applied after the emission. -/
theorem C2_per_key_emission {ι α β γ : Type} (itemPreProcessor : ι → Block α)
    (aggregationFunction : List α → β) (itemPostProcessor : Block β → γ)
    (items : List ι) :
    aggregate itemPreProcessor aggregationFunction itemPostProcessor items =
      emitThenApplyScan aggregationFunction itemPostProcessor
        (fun k => getOrEmpty (createRedBlackTree itemPreProcessor items) k)
        (treeKeys (createRedBlackTree itemPreProcessor items)) none [] := by
  have hsorted : treeSorted (createRedBlackTree itemPreProcessor items) := by
    rw [createRedBlackTree_eq_buildTree]
    exact buildTree_sorted _
  have hnodes : ∀ q ∈ createRedBlackTree itemPreProcessor items,
      getOrEmpty (createRedBlackTree itemPreProcessor items) q.1 = q.2 := by
    intro q hq
    obtain ⟨k, n⟩ := q
    rw [getOrEmpty, treeGet_eq_some_of_mem hsorted hq]
    rfl
  unfold aggregate
  cases htree : createRedBlackTree itemPreProcessor items with
  | nil => rfl
  | cons hd tl =>
    obtain ⟨k, n⟩ := hd
    rw [htree] at hnodes
    have hk : getOrEmpty ((k, n) :: tl) k = n := hnodes (k, n) (List.mem_cons_self _ _)
    have haux := scanLoop_eq_emitThenApply_aux aggregationFunction itemPostProcessor
      (fun c => getOrEmpty ((k, n) :: tl) c) tl
      (fun q hq => hnodes q (List.mem_cons_of_mem _ hq)) k n []
    rw [haux]
    show emitThenApplyScan _ _ _ (treeKeys tl) (some k) (applyNode [] n) =
      emitThenApplyScan _ _ _ (treeKeys tl) (some k)
        (applyNode [] (getOrEmpty ((k, n) :: tl) k))
    rw [hk]

/-- C2 counterexample: on the disjoint input `[0,5)`, `[10,15)` the
engine's output is `[{0,5,[0]}, {10,15,[1]}]`, while the claimed per-key
procedure (events at `k` applied before the emission check for span
`[previousKey, k)`) would emit `[{5,10,[1]}]` — a block over the
uncovered gap and nothing else. -/
theorem C2_counterexample :
    aggregate id (fun l : List Nat => l) (fun b => (b.start, b.«end», b.value))
        [(⟨0, 5, 0⟩ : Block Nat), ⟨10, 15, 1⟩] =
      [(0, 5, [0]), (10, 15, [1])] ∧
    claimedAggregate id (fun l : List Nat => l) (fun b => (b.start, b.«end», b.value))
        [(⟨0, 5, 0⟩ : Block Nat), ⟨10, 15, 1⟩] = [(5, 10, [1])] ∧
    aggregate id (fun l : List Nat => l) (fun b => (b.start, b.«end», b.value))
        [(⟨0, 5, 0⟩ : Block Nat), ⟨10, 15, 1⟩] ≠
      claimedAggregate id (fun l : List Nat => l) (fun b => (b.start, b.«end», b.value))
        [(⟨0, 5, 0⟩ : Block Nat), ⟨10, 15, 1⟩] :=
  ⟨by decide, by decide, by decide⟩

/-! ## C7: degenerate blocks -/

theorem emitted_point_covered_le {α β : Type} (agg : List α → β)
    (bs : List (Nat × Block α)) (hvalid : ∀ q ∈ bs, q.2.start ≤ q.2.«end»)
    {o : Block β} (ho : o ∈ spansOut agg (fun b => b) bs) {p : Int}
    (hp1 : o.start ≤ p) (hp2 : p < o.«end») : coveringList bs p ≠ [] := by
  obtain ⟨ab, habmem, hne, rfl⟩ := (mem_spansOut_iff agg bs o).mp ho
  have hab1 : ab.1 ≤ p := hp1
  have hab2 : p < ab.2 := hp2
  have hmem : ∃ e, e ∈ activeList bs ab.1 := by
    cases hal : activeList bs ab.1 with
    | nil =>
      rw [hal] at hne
      simp [List.isEmpty] at hne
    | cons a l => exact ⟨a, by simp [hal]⟩
  obtain ⟨e, he⟩ := hmem
  obtain ⟨ia, va⟩ := e
  obtain ⟨q, hqbs, _, _, hcond⟩ := (mem_activeList_iff _ _ _ _).mp he
  have hv := hvalid q hqbs
  have hcond2 := (activeCond_iff _ _).mp hcond
  have hgapE := spanPairs_gap (sortedKeys_pairwise bs) habmem q.2.«end»
    ((mem_sortedKeys_iff _ _).mpr (isKey_of_mem_end hqbs))
  intro hnil
  have hqcov : q ∈ coveringList bs p := by
    rw [coveringList, List.mem_filter]
    refine ⟨hqbs, ?_⟩
    simp only [Bool.and_eq_true, decide_eq_true_eq]
    omega
  rw [hnil] at hqcov
  simp at hqcov

theorem coveringValues_eq {ι α : Type} (itemPreProcessor : ι → Block α) (items : List ι)
    (p : Int) :
    coveringValues (blocksOf itemPreProcessor items) p =
      (items.filter (fun it => decide ((itemPreProcessor it).start ≤ p) &&
        decide (p < (itemPreProcessor it).«end»))).map
        (fun it => (itemPreProcessor it).value) := by
  unfold coveringValues coveringList blocksOf
  rw [filter_map_eq, List.map_map]
  conv_rhs => rw [show items = items.enum.map Prod.snd from (List.enum_map_snd items).symm]
  rw [filter_map_eq, List.map_map]
  rfl

/-- C7 counterexample: adding the degenerate block `{5,5}` to the single
block `[0,10)` raises no error, but splits the emitted span `[0,10)` at
coordinate 5, so the output is not identical to the output without the
degenerate block. -/
theorem C7_counterexample :
    aggregate id (fun l : List Nat => l) (fun b => (b.start, b.«end», b.value))
        [(⟨0, 10, 1⟩ : Block Nat), ⟨5, 5, 2⟩] = [(0, 5, [1]), (5, 10, [1])] ∧
    aggregate id (fun l : List Nat => l) (fun b => (b.start, b.«end», b.value))
        [(⟨0, 10, 1⟩ : Block Nat)] = [(0, 10, [1])] ∧
    aggregate id (fun l : List Nat => l) (fun b => (b.start, b.«end», b.value))
        [(⟨0, 10, 1⟩ : Block Nat), ⟨5, 5, 2⟩] ≠
      aggregate id (fun l : List Nat => l) (fun b => (b.start, b.«end», b.value))
        [(⟨0, 10, 1⟩ : Block Nat)] :=
  ⟨by decide, by decide, by decide⟩

/-- C7 amended: a degenerate block (start = end) raises no error and is
pointwise inert — at every point of the line, covered-ness and the
aggregated payload multiset of the unique covering output block are the
same with and without it — although it may split an emitted span at its
coordinate, so the output sequences need not be syntactically
identical. -/
theorem C7_degenerate_pointwise_inert {α β : Type} (aggregationFunction : List α → β)
    (l1 l2 : List (Block α)) (d : Block α) (p : Int)
    (hvalid : ∀ b ∈ l1 ++ l2, b.start < b.«end») (hd : d.start = d.«end») :
    ((∃ b ∈ l1 ++ l2, b.start ≤ p ∧ p < b.«end») →
      ∃ o o2 : Block β, ∃ l l2v : List α,
        (aggregate id aggregationFunction (fun x => x) (l1 ++ [d] ++ l2)).filter
            (fun b => decide (b.start ≤ p) && decide (p < b.«end»)) = [o] ∧
        (aggregate id aggregationFunction (fun x => x) (l1 ++ l2)).filter
            (fun b => decide (b.start ≤ p) && decide (p < b.«end»)) = [o2] ∧
        List.Perm l l2v ∧ o.value = aggregationFunction l ∧
        o2.value = aggregationFunction l2v) ∧
    ((∀ b ∈ l1 ++ l2, ¬(b.start ≤ p ∧ p < b.«end»)) →
      (∀ o ∈ aggregate id aggregationFunction (fun x => x) (l1 ++ [d] ++ l2),
        ¬(o.start ≤ p ∧ p < o.«end»)) ∧
      (∀ o ∈ aggregate id aggregationFunction (fun x => x) (l1 ++ l2),
        ¬(o.start ≤ p ∧ p < o.«end»))) := by
  have hmem1 : ∀ b ∈ l1 ++ [d] ++ l2, b ∈ l1 ++ l2 ∨ b = d := by
    intro b hb
    rcases List.mem_append.mp hb with hb1 | hb1
    · rcases List.mem_append.mp hb1 with hb2 | hb2
      · exact Or.inl (List.mem_append.mpr (Or.inl hb2))
      · exact Or.inr (by simpa using hb2)
    · exact Or.inl (List.mem_append.mpr (Or.inr hb1))
  have hmem2 : ∀ b ∈ l1 ++ l2, b ∈ l1 ++ [d] ++ l2 := by
    intro b hb
    rcases List.mem_append.mp hb with hb1 | hb1
    · exact List.mem_append.mpr (Or.inl (List.mem_append.mpr (Or.inl hb1)))
    · exact List.mem_append.mpr (Or.inr hb1)
  have hv1 : ∀ q ∈ blocksOf id (l1 ++ [d] ++ l2), q.2.start ≤ q.2.«end» := by
    intro q hq
    obtain ⟨it, hit, heq⟩ := mem_blocksOf_val hq
    rw [heq]
    rcases hmem1 it hit with h | h
    · exact le_of_lt (hvalid it h)
    · rw [h]
      exact le_of_eq hd
  have hv2 : ∀ q ∈ blocksOf id (l1 ++ l2), q.2.start ≤ q.2.«end» := by
    intro q hq
    obtain ⟨it, hit, heq⟩ := mem_blocksOf_val hq
    rw [heq]
    exact le_of_lt (hvalid it hit)
  have hcveq : coveringValues (blocksOf id (l1 ++ [d] ++ l2)) p =
      coveringValues (blocksOf id (l1 ++ l2)) p := by
    rw [coveringValues_eq, coveringValues_eq]
    rw [List.filter_append, List.filter_append, List.filter_append]
    rw [List.filter_cons_of_neg (by
      simp only [id, Bool.and_eq_true, decide_eq_true_eq, not_and]
      intro h
      omega)]
    simp
  constructor
  · rintro ⟨b0, hb0, hb01, hb02⟩
    obtain ⟨i1, hq1⟩ := exists_mem_blocksOf id (hmem2 b0 hb0)
    obtain ⟨i2, hq2⟩ := exists_mem_blocksOf id hb0
    obtain ⟨o, ho, l, hlperm, hlval⟩ :=
      covered_unique_value_le (β := β) aggregationFunction (blocksOf id (l1 ++ [d] ++ l2))
        hv1 ⟨(i1, id b0), hq1, hb01, hb02⟩
    obtain ⟨o2, ho2, l2v, hl2perm, hl2val⟩ :=
      covered_unique_value_le (β := β) aggregationFunction (blocksOf id (l1 ++ l2))
        hv2 ⟨(i2, id b0), hq2, hb01, hb02⟩
    refine ⟨o, o2, l, l2v, ?_, ?_, ?_, hlval, hl2val⟩
    · rw [aggregate_eq_spansOut]
      exact ho
    · rw [aggregate_eq_spansOut]
      exact ho2
    · refine hlperm.trans ?_
      rw [hcveq]
      exact hl2perm.symm
  · intro hunc
    constructor
    · intro o ho hcontains
      rw [aggregate_eq_spansOut] at ho
      have hne := emitted_point_covered_le aggregationFunction _ hv1 ho
        hcontains.1 hcontains.2
      obtain ⟨q, hq⟩ : ∃ q, q ∈ coveringList (blocksOf id (l1 ++ [d] ++ l2)) p := by
        cases h : coveringList (blocksOf id (l1 ++ [d] ++ l2)) p with
        | nil => exact absurd h hne
        | cons a rest => exact ⟨a, by simp [h]⟩
      rw [coveringList, List.mem_filter] at hq
      have hqp : q.2.start ≤ p ∧ p < q.2.«end» := by
        have := hq.2
        simp only [Bool.and_eq_true, decide_eq_true_eq] at this
        exact this
      obtain ⟨it, hit, heq⟩ := mem_blocksOf_val hq.1
      rw [heq] at hqp
      rcases hmem1 it hit with h | h
      · exact hunc it h (by simpa using hqp)
      · rw [h] at hqp
        simp only [id] at hqp
        omega
    · intro o ho hcontains
      rw [aggregate_eq_spansOut] at ho
      have hne := emitted_point_covered_le aggregationFunction _ hv2 ho
        hcontains.1 hcontains.2
      obtain ⟨q, hq⟩ : ∃ q, q ∈ coveringList (blocksOf id (l1 ++ l2)) p := by
        cases h : coveringList (blocksOf id (l1 ++ l2)) p with
        | nil => exact absurd h hne
        | cons a rest => exact ⟨a, by simp [h]⟩
      rw [coveringList, List.mem_filter] at hq
      have hqp : q.2.start ≤ p ∧ p < q.2.«end» := by
        have := hq.2
        simp only [Bool.and_eq_true, decide_eq_true_eq] at this
        exact this
      obtain ⟨it, hit, heq⟩ := mem_blocksOf_val hq.1
      rw [heq] at hqp
      exact hunc it hit (by simpa using hqp)

/-- Witness for the amended C7 at a concrete input: block `[0,10)` plus
the degenerate block `{5,5}`, at point `p = 3`. -/
theorem C7_degenerate_pointwise_inert_witness :
    (∀ b ∈ [(⟨0, 10, 1⟩ : Block Nat)] ++ [], b.start < b.«end») ∧
    ((⟨5, 5, 2⟩ : Block Nat).start = (⟨5, 5, 2⟩ : Block Nat).«end») ∧
    (((∃ b ∈ [(⟨0, 10, 1⟩ : Block Nat)] ++ [], b.start ≤ 3 ∧ 3 < b.«end») →
      ∃ o o2 : Block (List Nat), ∃ l l2v : List Nat,
        (aggregate id (fun l : List Nat => l) (fun x => x)
            ([(⟨0, 10, 1⟩ : Block Nat)] ++ [⟨5, 5, 2⟩] ++ [])).filter
            (fun b => decide (b.start ≤ 3) && decide (3 < b.«end»)) = [o] ∧
        (aggregate id (fun l : List Nat => l) (fun x => x)
            ([(⟨0, 10, 1⟩ : Block Nat)] ++ [])).filter
            (fun b => decide (b.start ≤ 3) && decide (3 < b.«end»)) = [o2] ∧
        List.Perm l l2v ∧ o.value = l ∧ o2.value = l2v) ∧
    ((∀ b ∈ [(⟨0, 10, 1⟩ : Block Nat)] ++ [], ¬(b.start ≤ 3 ∧ 3 < b.«end»)) →
      (∀ o ∈ aggregate id (fun l : List Nat => l) (fun x => x)
          ([(⟨0, 10, 1⟩ : Block Nat)] ++ [⟨5, 5, 2⟩] ++ []),
        ¬(o.start ≤ 3 ∧ 3 < o.«end»)) ∧
      (∀ o ∈ aggregate id (fun l : List Nat => l) (fun x => x)
          ([(⟨0, 10, 1⟩ : Block Nat)] ++ []),
        ¬(o.start ≤ 3 ∧ 3 < o.«end»)))) :=
  ⟨by decide, by decide,
    C7_degenerate_pointwise_inert (fun l => l) [(⟨0, 10, 1⟩ : Block Nat)] [] ⟨5, 5, 2⟩ 3
      (by decide) (by decide)⟩

/-! ## C8 and C10: callback failure -/

theorem exbind_ok {ε α β : Type} (a : α) (f : α → Except ε β) :
    ((Except.ok a : Except ε α) >>= f) = f a := rfl

theorem exbind_error {ε α β : Type} (e : ε) (f : α → Except ε β) :
    ((Except.error e : Except ε α) >>= f) = Except.error e := rfl

theorem scanLoopE_ok {α β γ ε : Type} (agg : List α → β) (post : Block β → γ) :
    ∀ (t : Tree α) (nodeValues : List (Nat × α)),
      scanLoopE (ε := ε) (fun l => Except.ok (agg l)) (fun b => Except.ok (post b))
        t nodeValues = Except.ok (scanLoop agg post t nodeValues) := by
  intro t
  induction t with
  | nil => intro A; rfl
  | cons hd tl ih =>
    intro A
    cases tl with
    | nil => rfl
    | cons hd2 tl2 =>
      obtain ⟨k, n⟩ := hd
      obtain ⟨k2, n2⟩ := hd2
      by_cases h : (applyNode A n).isEmpty
      · simp only [scanLoopE, scanLoop, if_pos h]
        exact ih (applyNode A n)
      · simp only [scanLoopE, scanLoop, if_neg h]
        rw [exbind_ok, exbind_ok, ih (applyNode A n), exbind_ok]
        rfl

theorem scanLoopE_length {α β γ ε : Type} (aggE : List α → Except ε β)
    (postE : Block β → Except ε γ) (agg : List α → β) (post : Block β → γ) :
    ∀ (t : Tree α) (nodeValues : List (Nat × α)) (out : List γ),
      scanLoopE aggE postE t nodeValues = Except.ok out →
      out.length = (scanLoop agg post t nodeValues).length := by
  intro t
  induction t with
  | nil =>
    intro A out h
    simp only [scanLoopE] at h
    cases h
    rfl
  | cons hd tl ih =>
    intro A out h
    cases tl with
    | nil =>
      obtain ⟨k, n⟩ := hd
      simp only [scanLoopE] at h
      cases h
      rfl
    | cons hd2 tl2 =>
      obtain ⟨k, n⟩ := hd
      obtain ⟨k2, n2⟩ := hd2
      by_cases hemp : (applyNode A n).isEmpty
      · simp only [scanLoopE, if_pos hemp] at h
        simp only [scanLoop, if_pos hemp]
        exact ih (applyNode A n) out h
      · simp only [scanLoopE, if_neg hemp] at h
        simp only [scanLoop, if_neg hemp]
        cases hagg : aggE ((applyNode A n).map Prod.snd) with
        | error e =>
          rw [hagg, exbind_error] at h
          exact absurd h (by simp)
        | ok b =>
          rw [hagg, exbind_ok] at h
          cases hpost : postE { start := k, «end» := k2, value := b } with
          | error e =>
            rw [hpost, exbind_error] at h
            exact absurd h (by simp)
          | ok g =>
            rw [hpost, exbind_ok] at h
            cases hrec : scanLoopE aggE postE ((k2, n2) :: tl2) (applyNode A n) with
            | error e =>
              rw [hrec, exbind_error] at h
              exact absurd h (by simp)
            | ok out2 =>
              rw [hrec, exbind_ok] at h
              have hout : out = g :: out2 := by
                have := h
                simp only [pure, Except.pure] at this
                cases this
                rfl
              rw [hout]
              simp only [List.length_cons]
              rw [ih (applyNode A n) out2 hrec]

theorem scanLoopE_error_agg {α β γ ε : Type} (e : ε) (postE : Block β → Except ε γ)
    (agg : List α → β) (post : Block β → γ) :
    ∀ (t : Tree α) (nodeValues : List (Nat × α)),
      scanLoop agg post t nodeValues ≠ [] →
      scanLoopE (fun _ => Except.error e) postE t nodeValues = Except.error e := by
  intro t
  induction t with
  | nil =>
    intro A h
    exact absurd rfl h
  | cons hd tl ih =>
    intro A h
    cases tl with
    | nil =>
      obtain ⟨k, n⟩ := hd
      exact absurd rfl h
    | cons hd2 tl2 =>
      obtain ⟨k, n⟩ := hd
      obtain ⟨k2, n2⟩ := hd2
      by_cases hemp : (applyNode A n).isEmpty
      · simp only [scanLoop, if_pos hemp] at h
        simp only [scanLoopE, if_pos hemp]
        exact ih (applyNode A n) h
      · simp only [scanLoopE, if_neg hemp]
        rw [exbind_error]

theorem foldlME_build_ok {ι α ε : Type} (itemPreProcessor : ι → Block α) :
    ∀ (l : List (Nat × ι)) (acc : Tree α),
      (l.foldlM (fun t q => do
        let block ← (Except.ok (itemPreProcessor q.2) : Except ε (Block α))
        pure (pushValueToNode (pushValueToNode t block.start (.toStart q.1 block.value))
          block.«end» (.toEnd q.1))) acc : Except ε (Tree α)) =
      Except.ok (l.foldl (fun t q =>
        let block := itemPreProcessor q.2
        pushValueToNode (pushValueToNode t block.start (.toStart q.1 block.value))
          block.«end» (.toEnd q.1)) acc) := by
  intro l
  induction l with
  | nil => intro acc; rfl
  | cons x l ih =>
    intro acc
    rw [List.foldlM_cons, List.foldl_cons]
    exact ih _

theorem createRedBlackTreeE_ok {ι α ε : Type} (itemPreProcessor : ι → Block α)
    (items : List ι) :
    createRedBlackTreeE (ε := ε) (fun it => Except.ok (itemPreProcessor it)) items =
      Except.ok (createRedBlackTree itemPreProcessor items) := by
  unfold createRedBlackTreeE createRedBlackTree
  exact foldlME_build_ok itemPreProcessor items.enum []

/-- C8: all-or-nothing on callback failure.  With succeeding callbacks
the fallible engine returns the full output of the pure engine; whenever
it returns `ok`, the returned sequence has the full per-covered-span
length (never a truncated prefix); and a throwing aggregation function
makes the whole call propagate that error whenever at least one span
would be emitted. -/
theorem C8_all_or_nothing {ι α β γ ε : Type} (itemPreProcessor : ι → Block α)
    (aggregationFunction : List α → β) (itemPostProcessor : Block β → γ)
    (items : List ι) :
    aggregateE (ε := ε) (fun it => Except.ok (itemPreProcessor it))
      (fun l => Except.ok (aggregationFunction l))
      (fun b => Except.ok (itemPostProcessor b)) items =
      Except.ok (aggregate itemPreProcessor aggregationFunction itemPostProcessor items) ∧
    (∀ (aggE : List α → Except ε β) (postE : Block β → Except ε γ) (out : List γ),
      aggregateE (fun it => Except.ok (itemPreProcessor it)) aggE postE items =
        Except.ok out →
      out.length =
        (aggregate itemPreProcessor aggregationFunction itemPostProcessor items).length) ∧
    (∀ (e : ε) (postE : Block β → Except ε γ),
      aggregate itemPreProcessor aggregationFunction itemPostProcessor items ≠ [] →
      aggregateE (fun it => Except.ok (itemPreProcessor it)) (fun _ => Except.error e)
        postE items = Except.error e) := by
  refine ⟨?_, ?_, ?_⟩
  · unfold aggregateE aggregate
    rw [createRedBlackTreeE_ok, exbind_ok]
    exact scanLoopE_ok aggregationFunction itemPostProcessor _ []
  · intro aggE postE out h
    unfold aggregateE at h
    rw [createRedBlackTreeE_ok, exbind_ok] at h
    exact scanLoopE_length aggE postE aggregationFunction itemPostProcessor _ [] out h
  · intro e postE hne
    unfold aggregateE
    rw [createRedBlackTreeE_ok, exbind_ok]
    exact scanLoopE_error_agg e postE aggregationFunction itemPostProcessor _ [] hne

/-- Witness for C8 at a concrete input (error type `Nat`). -/
theorem C8_all_or_nothing_witness :
    aggregateE (ε := Nat) (fun it => Except.ok (id it))
      (fun l : List Nat => Except.ok l) (fun b => Except.ok (b.start, b.«end», b.value))
      [(⟨0, 5, 1⟩ : Block Nat)] =
      Except.ok (aggregate id (fun l : List Nat => l)
        (fun b => (b.start, b.«end», b.value)) [(⟨0, 5, 1⟩ : Block Nat)]) ∧
    (∀ (aggE : List Nat → Except Nat (List Nat))
      (postE : Block (List Nat) → Except Nat (Int × Int × List Nat))
      (out : List (Int × Int × List Nat)),
      aggregateE (fun it => Except.ok (id it)) aggE postE [(⟨0, 5, 1⟩ : Block Nat)] =
        Except.ok out →
      out.length = (aggregate id (fun l : List Nat => l)
        (fun b => (b.start, b.«end», b.value)) [(⟨0, 5, 1⟩ : Block Nat)]).length) ∧
    (∀ (e : Nat) (postE : Block (List Nat) → Except Nat (Int × Int × List Nat)),
      aggregate id (fun l : List Nat => l) (fun b => (b.start, b.«end», b.value))
        [(⟨0, 5, 1⟩ : Block Nat)] ≠ [] →
      aggregateE (fun it => Except.ok (id it)) (fun _ => Except.error e) postE
        [(⟨0, 5, 1⟩ : Block Nat)] = Except.error e) :=
  C8_all_or_nothing id (fun l => l) (fun b => (b.start, b.«end», b.value))
    [(⟨0, 5, 1⟩ : Block Nat)]

theorem expure_eq_ok {ε α : Type} (a : α) : (pure a : Except ε α) = Except.ok a := rfl

theorem foldlME_build_error {ι α ε : Type} (preE : ι → Except ε (Block α)) :
    ∀ (l : List (Nat × ι)) (acc : Tree α),
      (∃ q ∈ l, ∃ e, preE q.2 = Except.error e) →
      ∃ e, (l.foldlM (fun t q => do
        let block ← preE q.2
        pure (pushValueToNode (pushValueToNode t block.start (.toStart q.1 block.value))
          block.«end» (.toEnd q.1))) acc : Except ε (Tree α)) = Except.error e := by
  intro l
  induction l with
  | nil =>
    rintro acc ⟨q, hq, _⟩
    simp at hq
  | cons x l ih =>
    rintro acc ⟨q, hq, e, he⟩
    rw [List.foldlM_cons]
    cases hx : preE x.2 with
    | error e2 =>
      refine ⟨e2, ?_⟩
      rw [exbind_error, exbind_error]
    | ok b =>
      have hq2 : q ∈ l := by
        rcases List.mem_cons.mp hq with h | h
        · rw [h] at he
          rw [he] at hx
          exact Except.noConfusion hx
        · exact h
      rw [exbind_ok, expure_eq_ok, exbind_ok]
      exact ih _ ⟨q, hq2, e, he⟩

/-- C10: if the item pre-processor throws on any input item, the whole
call fails with the error of the (first failing step of the) build
phase, before the aggregation function or the post-processor has been
invoked even once — the result is the same error for every choice of
those two callbacks, and no output is returned. -/
theorem C10_normalizer_failure {ι α β γ ε : Type}
    (itemPreProcessor : ι → Except ε (Block α)) (items : List ι)
    (h : ∃ it ∈ items, ∃ e, itemPreProcessor it = Except.error e) :
    ∃ e : ε, createRedBlackTreeE itemPreProcessor items = Except.error e ∧
      ∀ (aggE : List α → Except ε β) (postE : Block β → Except ε γ),
        aggregateE itemPreProcessor aggE postE items = Except.error e := by
  obtain ⟨it, hit, e0, he0⟩ := h
  have henum : ∃ q ∈ items.enum, ∃ e, itemPreProcessor q.2 = Except.error e := by
    have h2 : it ∈ items.enum.map Prod.snd := by rwa [List.enum_map_snd]
    rw [List.mem_map] at h2
    obtain ⟨r, hr, hit2⟩ := h2
    exact ⟨r, hr, e0, by rw [hit2]; exact he0⟩
  obtain ⟨e, he⟩ := foldlME_build_error itemPreProcessor items.enum [] henum
  have he2 : createRedBlackTreeE itemPreProcessor items = Except.error e := he
  refine ⟨e, he2, ?_⟩
  intro aggE postE
  unfold aggregateE
  rw [he2, exbind_error]

/-- Witness for C10 at a concrete input: a normalizer that throws on its
only item. -/
theorem C10_normalizer_failure_witness :
    (∃ it ∈ [(3 : Nat)], ∃ e : Nat,
      (fun _ : Nat => (Except.error 7 : Except Nat (Block Nat))) it = Except.error e) ∧
    ∃ e : Nat, createRedBlackTreeE
        (fun _ : Nat => (Except.error 7 : Except Nat (Block Nat))) [3] =
        Except.error e ∧
      ∀ (aggE : List Nat → Except Nat (List Nat))
        (postE : Block (List Nat) → Except Nat (Int × Int × List Nat)),
        aggregateE (fun _ : Nat => (Except.error 7 : Except Nat (Block Nat)))
          aggE postE [3] = Except.error e :=
  ⟨⟨3, by decide, 7, rfl⟩,
    C10_normalizer_failure (fun _ => Except.error 7) [3] ⟨3, by decide, 7, rfl⟩⟩

/-! ## C9: determinism and per-call isolation -/

/-- C9: with pure callbacks every call of `aggregate` on an
`Aggregator` instance depends only on that call's own input — the
result at each position of a call sequence is a function of the input
at that position alone, equal inputs anywhere in the sequence give
identical outputs, and repeating the same input yields the identical
output sequence both times. -/
theorem C9_per_call_isolation {ι α β γ : Type} (a : Aggregator ι α β γ)
    (calls : List (List ι)) (i : Nat) :
    (runCalls a calls)[i]? = (calls[i]?).map (fun items => a.aggregate items) ∧
    (∀ j : Nat, calls[i]? = calls[j]? →
      (runCalls a calls)[i]? = (runCalls a calls)[j]?) ∧
    (∀ items : List ι, runCalls a [items, items] =
      [a.aggregate items, a.aggregate items]) := by
  refine ⟨?_, ?_, ?_⟩
  · unfold runCalls
    exact List.getElem?_map _ calls i
  · intro j h
    unfold runCalls
    rw [List.getElem?_map, List.getElem?_map, h]
  · intro items
    rfl

/-- Witness for C9 at a concrete instance and call sequence. -/
theorem C9_per_call_isolation_witness :
    (runCalls (Aggregator.mk id (fun l : List Nat => l)
        (fun b => (b.start, b.«end», b.value)))
      [[(⟨0, 5, 1⟩ : Block Nat)], [⟨0, 5, 1⟩]])[0]? =
      ([[(⟨0, 5, 1⟩ : Block Nat)], [⟨0, 5, 1⟩]][0]?).map
        (fun items => (Aggregator.mk id (fun l : List Nat => l)
          (fun b => (b.start, b.«end», b.value))).aggregate items) ∧
    (runCalls (Aggregator.mk id (fun l : List Nat => l)
        (fun b => (b.start, b.«end», b.value)))
      [[(⟨0, 5, 1⟩ : Block Nat)], [⟨0, 5, 1⟩]])[0]? =
      (runCalls (Aggregator.mk id (fun l : List Nat => l)
        (fun b => (b.start, b.«end», b.value)))
      [[(⟨0, 5, 1⟩ : Block Nat)], [⟨0, 5, 1⟩]])[1]? :=
  ⟨(C9_per_call_isolation (Aggregator.mk id (fun l : List Nat => l)
      (fun b => (b.start, b.«end», b.value)))
      [[(⟨0, 5, 1⟩ : Block Nat)], [⟨0, 5, 1⟩]] 0).1,
    (C9_per_call_isolation (Aggregator.mk id (fun l : List Nat => l)
      (fun b => (b.start, b.«end», b.value)))
      [[(⟨0, 5, 1⟩ : Block Nat)], [⟨0, 5, 1⟩]] 0).2.1 1 (by decide)⟩
